import Mathlib

/-!
# Shallow embedding of the OVS flow classifier

This file embeds the flow classifier declared in `src/lib/classifier.h`:
a classifier is a collection of tables, one per wildcard mask in use; a
table is a collection of equal-key chains, each chain holding otherwise
identical rules in strictly descending priority order.

Only the header (type and function declarations, plus the documented
invariant on `cls_rule`) is present in the repository sources; the bodies
of the `classifier_*` functions live in `classifier.c`, which is not under
`src/`.  Every operation below is therefore modelled from the spec, as
indicated in its doc comment, while the data shapes follow the structs in
`classifier.h`.

Flow records and masks are modelled as natural numbers viewed as bit
vectors: a header is a tuple of fixed-width fields, which concatenates into
one bit string.  A mask bit `1` means "don't care" (wildcarded), matching
the spec's convention.
-/

/-- `maskOff x m` clears in `x` every bit that is set in `m`; it is the
C expression `x & ~m` on the bit-vector encoding (applying a wildcard mask
means keeping only the non-wildcarded bits). -/
def maskOff (x m : Nat) : Nat := (x ||| m) ^^^ m

theorem testBit_maskOff (x m k : Nat) :
    (maskOff x m).testBit k = ((x.testBit k) && !(m.testBit k)) := by
  simp only [maskOff, Nat.testBit_xor, Nat.testBit_lor]
  cases x.testBit k <;> cases m.testBit k <;> rfl

theorem maskOff_zero (x : Nat) : maskOff x 0 = x := by
  simp [maskOff]

theorem maskOff_maskOff (x m : Nat) : maskOff (maskOff x m) m = maskOff x m := by
  apply Nat.eq_of_testBit_eq
  intro k
  simp only [testBit_maskOff]
  cases x.testBit k <;> cases m.testBit k <;> rfl

/-- A flow classification rule, after `struct cls_rule` in `classifier.h`:
field values `flow`, wildcard mask `wc`, and `priority` (larger numbers are
higher priorities).  The `id` field stands for the identity (address) of
the rule object, which in C distinguishes two structurally equal rules;
the intrusive `hmap_node` and `list` links are represented by the rule's
position inside its table's chain list rather than by fields. -/
structure cls_rule where
  flow : Nat
  wc : Nat
  priority : Nat
  id : Nat
deriving DecidableEq

/-- A set of rules that all have the same fields wildcarded, after
`struct cls_table`: `wc` is the shared wildcard mask, `chains` models the
`rules` hash map as the list of its equal-key chains (each chain is the
head rule followed by the identical lower-priority rules), and `n_refs` is
the reference count used during iteration. -/
structure cls_table where
  wc : Nat
  chains : List (List cls_rule)
  n_refs : Nat
deriving DecidableEq

/-- A flow classifier, after `struct classifier`: the collection of tables
(the `tables` hmap).  The `n_rules` count of the C struct is recomputed by
`classifier_count` instead of being stored. -/
structure classifier where
  tables : List cls_table
deriving DecidableEq

/-- Number of rules in a table, including chain duplicates
(`n_table_rules`). -/
def cls_table_count (t : cls_table) : Nat := (t.chains.map List.length).sum

/-- All rules of a table, chain by chain, each chain in its stored
(descending-priority) order. -/
def cls_table_rules (t : cls_table) : List cls_rule := t.chains.flatten

/-- Total number of rules in the classifier (`classifier_count`). -/
def classifier_count (cls : classifier) : Nat := (cls.tables.map cls_table_count).sum

/-- All rules of the classifier, table by table. -/
def classifier_rules (cls : classifier) : List cls_rule :=
  cls.tables.flatMap cls_table_rules

/-- `classifier_is_empty`. -/
def classifier_is_empty (cls : classifier) : Bool := classifier_count cls == 0

/-- Include exact-match flows? (`CLS_INC_EXACT = 1 << 0`). -/
def CLS_INC_EXACT : Nat := 1

/-- Include flows with wildcards? (`CLS_INC_WILD = 1 << 1`). -/
def CLS_INC_WILD : Nat := 2

/-- `CLS_INC_ALL = CLS_INC_EXACT | CLS_INC_WILD`. -/
def CLS_INC_ALL : Nat := CLS_INC_EXACT ||| CLS_INC_WILD

/-- Modelled from the spec: the `include` selection used by
`classifier_lookup` and the iteration functions (bodies in the missing
`classifier.c`).  A table whose mask has no wildcard bits is the
exact-match table and is selected by `CLS_INC_EXACT`; every other table is
selected by `CLS_INC_WILD`. -/
def table_included (inc : Nat) (wcv : Nat) : Bool :=
  if wcv == 0 then inc &&& CLS_INC_EXACT != 0 else inc &&& CLS_INC_WILD != 0

/-- Does rule `r` match the concrete header `p`?  The header agrees with
the rule's flow on every non-wildcarded bit; since rules keep wildcarded
value bits zero (invariant I1 of `classifier.h`), this is `p & ~wc ==
flow`. -/
def rule_matches (p : Nat) (r : cls_rule) : Bool := maskOff p r.wc == r.flow

/-- The equal-key chain key: the masked value shared by the chain's
members, read off from the chain's head. -/
def chain_key (wcv : Nat) (c : List cls_rule) : Nat :=
  match c with
  | [] => 0
  | m :: _ => maskOff m.flow wcv

/-- Does the (nonempty) chain `c` carry masked value `key` under table
mask `wcv`? -/
def chain_matches (wcv key : Nat) (c : List cls_rule) : Bool :=
  match c with
  | [] => false
  | m :: _ => maskOff m.flow wcv == key

/-- Modelled from the spec: body of `cls_rule_from_flow` is in the missing
`classifier.c`.  Builds a rule from a flow record, a wildcard word and a
priority, zeroing every wildcarded bit of the record so that invariant I1
of `classifier.h` holds by construction.  `rid` is the identity of the
`cls_rule` object being initialised. -/
def cls_rule_from_flow (flowv wildcards priority rid : Nat) : cls_rule :=
  { flow := maskOff flowv wildcards, wc := wildcards, priority := priority, id := rid }

/-- Modelled from the spec: body of `cls_rule_zero_wildcards` is in the
missing `classifier.c`.  Idempotent normalisation restoring invariant I1
after a caller widened the rule's wildcards. -/
def cls_rule_zero_wildcards (r : cls_rule) : cls_rule :=
  { r with flow := maskOff r.flow r.wc }

/-- Modelled from the spec (4.2): the chain walk of the insert path.
Walking the strictly-descending chain: an equal-priority member is
replaced (detached and returned); otherwise the new rule is spliced in at
the position that keeps the chain strictly descending. -/
def chain_insert (r : cls_rule) : List cls_rule → List cls_rule × Option cls_rule
  | [] => ([r], none)
  | m :: rest =>
    if r.priority == m.priority then (r :: rest, some m)
    else if m.priority < r.priority then (r :: m :: rest, none)
    else
      let res := chain_insert r rest
      (m :: res.1, res.2)

/-- Modelled from the spec (4.2): locate or create the equal-key chain for
masked value `key` inside a table's chain list, and insert there. -/
def chains_insert (wcv key : Nat) (r : cls_rule) :
    List (List cls_rule) → List (List cls_rule) × Option cls_rule
  | [] => ([[r]], none)
  | c :: cs =>
    if chain_matches wcv key c then
      let res := chain_insert r c
      (res.1 :: cs, res.2)
    else
      let res := chains_insert wcv key r cs
      (c :: res.1, res.2)

/-- Modelled from the spec (4.2): insert `r` into table `t` (whose mask is
already known to be the right one): compute the masked value of `r` and
insert into its equal-key chain. -/
def cls_table_insert (r : cls_rule) (t : cls_table) : cls_table × Option cls_rule :=
  let res := chains_insert t.wc (maskOff r.flow t.wc) r t.chains
  ({ t with chains := res.1 }, res.2)

/-- Modelled from the spec (4.2): find the table whose mask equals
`target`, creating it on miss (fresh table, `n_refs = 0`), and insert
`r` there. -/
def tables_insert (target : Nat) (r : cls_rule) :
    List cls_table → List cls_table × Option cls_rule
  | [] => ([{ wc := target, chains := [[r]], n_refs := 0 }], none)
  | t :: ts =>
    if t.wc == target then
      let res := cls_table_insert r t
      (res.1 :: ts, res.2)
    else
      let res := tables_insert target r ts
      (t :: res.1, res.2)

/-- Modelled from the spec: body of `classifier_insert` is in the missing
`classifier.c` (spec 4.2).  Returns the updated classifier together with
the displaced equal-priority rule, if any (`none` signals a fresh
insert). -/
def classifier_insert (cls : classifier) (r : cls_rule) : classifier × Option cls_rule :=
  let res := tables_insert r.wc r cls.tables
  ({ tables := res.1 }, res.2)

/-- Modelled from the spec: body of `classifier_insert_exact` is in the
missing `classifier.c` (spec 4.3).  Insertion restricted to the dedicated
zero-wildcard table, bypassing the generic mask lookup; the C declaration
returns `void`, so any displaced rule is dropped here. -/
def classifier_insert_exact (cls : classifier) (r : cls_rule) : classifier :=
  { tables := (tables_insert 0 r cls.tables).1 }

/-- Detach rule `r` (identified by its object identity) from a chain. -/
def chain_remove (r : cls_rule) (c : List cls_rule) : List cls_rule :=
  c.filter (fun m => m.id != r.id)

/-- Modelled from the spec (4.5): detach `r` from its equal-key chain; a
chain that becomes empty is removed from the table's index. -/
def chains_remove (wcv key : Nat) (r : cls_rule) :
    List (List cls_rule) → List (List cls_rule)
  | [] => []
  | c :: cs =>
    if chain_matches wcv key c then
      let c2 := chain_remove r c
      if c2.isEmpty then cs else c2 :: cs
    else c :: chains_remove wcv key r cs

/-- Modelled from the spec (4.5): remove `r` from table `t`. -/
def cls_table_remove (r : cls_rule) (t : cls_table) : cls_table :=
  { t with chains := chains_remove t.wc (maskOff r.flow t.wc) r t.chains }

/-- Modelled from the spec (4.5): locate `r`'s table by mask, detach `r`,
and destroy the table if its rule count reached zero while no iteration
holds a reservation on it (otherwise destruction is deferred). -/
def tables_remove (r : cls_rule) : List cls_table → List cls_table
  | [] => []
  | t :: ts =>
    if t.wc == r.wc then
      let t2 := cls_table_remove r t
      if cls_table_count t2 == 0 && t2.n_refs == 0 then ts else t2 :: ts
    else t :: tables_remove r ts

/-- Modelled from the spec: body of `classifier_remove` is in the missing
`classifier.c` (spec 4.5). -/
def classifier_remove (cls : classifier) (r : cls_rule) : classifier :=
  { tables := tables_remove r cls.tables }

/-- Modelled from the spec (4.4): probe one table: apply the table's mask
to the header, find the equal-key chain for the masked value, and take its
head, which by invariant I3 is the chain's highest-priority rule. -/
def cls_table_lookup (t : cls_table) (p : Nat) : Option cls_rule :=
  match t.chains.find? (chain_matches t.wc (maskOff p t.wc)) with
  | some c => c.head?
  | none => none

/-- Modelled from the spec (4.4): scan the tables selected by the include
flags and retain the candidate with the numerically highest priority; on a
priority tie the earlier table wins (the tie-break is deterministic but
otherwise unspecified in the spec). -/
def lookup_tables (p inc : Nat) : List cls_table → Option cls_rule
  | [] => none
  | t :: ts =>
    let rest := lookup_tables p inc ts
    if table_included inc t.wc then
      match cls_table_lookup t p with
      | some r =>
        match rest with
        | some b => if r.priority < b.priority then some b else some r
        | none => some r
      | none => rest
    else rest

/-- Modelled from the spec: body of `classifier_lookup` is in the missing
`classifier.c` (spec 4.4). -/
def classifier_lookup (cls : classifier) (p inc : Nat) : Option cls_rule :=
  lookup_tables p inc cls.tables

/-- Modelled from the spec (4.6): two rules overlap iff, restricted to the
bit positions outside the combined mask, their values agree. -/
def rules_overlap (a b : cls_rule) : Bool :=
  maskOff a.flow (a.wc ||| b.wc) == maskOff b.flow (a.wc ||| b.wc)

/-- Modelled from the spec: body of `classifier_rule_overlaps` is in the
missing `classifier.c` (spec 4.6): scan every rule of every table for one
that overlaps the candidate. -/
def classifier_rule_overlaps (cls : classifier) (target : cls_rule) : Bool :=
  (classifier_rules cls).any (fun r => rules_overlap target r)

/-- Modelled from the spec: `classifier_find_rule_exactly` from the
missing `classifier.c`: exact structural match on value, mask and
priority (not a classification lookup). -/
def classifier_find_rule_exactly (cls : classifier) (target : cls_rule) : Option cls_rule :=
  (classifier_rules cls).find?
    (fun r => r.flow == target.flow && r.wc == target.wc && r.priority == target.priority)

/-- The (first) table with mask `wcv`, if registered. -/
def get_table (cls : classifier) (wcv : Nat) : Option cls_table :=
  cls.tables.find? (fun t => t.wc == wcv)

/-- Rule count of the table registered under mask `wcv` (0 if none). -/
def mask_count (cls : classifier) (wcv : Nat) : Nat :=
  match get_table cls wcv with
  | some t => cls_table_count t
  | none => 0

/-- Modelled from the spec (4.7): take a reservation on the table with
mask `wcv` before traversing it. -/
def tables_reserve (wcv : Nat) : List cls_table → List cls_table
  | [] => []
  | t :: ts =>
    if t.wc == wcv then { t with n_refs := t.n_refs + 1 } :: ts
    else t :: tables_reserve wcv ts

/-- Modelled from the spec (4.5/4.7): drop a reservation on the table with
mask `wcv`; a table that is empty once its last reservation is released is
destroyed at that point (deferred destruction). -/
def tables_release (wcv : Nat) : List cls_table → List cls_table
  | [] => []
  | t :: ts =>
    if t.wc == wcv then
      let t2 := { t with n_refs := t.n_refs - 1 }
      if cls_table_count t2 == 0 && t2.n_refs == 0 then ts else t2 :: ts
    else t :: tables_release wcv ts

/-- Reservation, lifted to the classifier. -/
def classifier_reserve (cls : classifier) (wcv : Nat) : classifier :=
  { tables := tables_reserve wcv cls.tables }

/-- Release, lifted to the classifier. -/
def classifier_release (cls : classifier) (wcv : Nat) : classifier :=
  { tables := tables_release wcv cls.tables }

/-- The rules currently held by the table registered under `wcv`. -/
def rules_in_table (s : classifier) (wcv : Nat) : List cls_rule :=
  match get_table s wcv with
  | some t => cls_table_rules t
  | none => []

/-- Modelled from the spec (4.7): visit the listed rules in order,
threading the classifier state through the callback.  The "next" position
(the tail of the list) is captured before the callback runs, so a callback
that removes the current rule does not corrupt the traversal.  Besides the
final state, the log of `(rule, state at the moment of the call)` pairs is
returned. -/
def visit_rules (cb : cls_rule → classifier → classifier) :
    List cls_rule → classifier → classifier × List (cls_rule × classifier)
  | [], s => (s, [])
  | r :: rest, s =>
    let s2 := cb r s
    let res := visit_rules cb rest s2
    (res.1, (r, s) :: res.2)

/-- Apply the optional `for_each_match` filter rule: only rules
overlapping it (spec 4.6) are visited. -/
def filter_rules (flt : Option cls_rule) (l : List cls_rule) : List cls_rule :=
  match flt with
  | none => l
  | some f => l.filter (fun r => rules_overlap f r)

/-- Modelled from the spec (4.7): walk the tables that existed when
iteration began; for each table selected by the include flags, take a
reservation, visit its current rules (filtered for `for_each_match`),
then release the reservation (which destroys the table if the callback
emptied it). -/
def for_each_tables (inc : Nat) (flt : Option cls_rule)
    (cb : cls_rule → classifier → classifier) :
    List cls_table → classifier → classifier × List (cls_rule × classifier)
  | [], s => (s, [])
  | t :: ts, s =>
    if table_included inc t.wc then
      let s1 := classifier_reserve s t.wc
      let res := visit_rules cb (filter_rules flt (rules_in_table s1 t.wc)) s1
      let s3 := classifier_release res.1 t.wc
      let res2 := for_each_tables inc flt cb ts s3
      (res2.1, res.2 ++ res2.2)
    else for_each_tables inc flt cb ts s

/-- Modelled from the spec: body of `classifier_for_each` is in the
missing `classifier.c` (spec 4.7). -/
def classifier_for_each (cls : classifier) (inc : Nat)
    (cb : cls_rule → classifier → classifier) :
    classifier × List (cls_rule × classifier) :=
  for_each_tables inc none cb cls.tables cls

/-- Modelled from the spec: body of `classifier_for_each_match` is in the
missing `classifier.c` (spec 4.7): like `classifier_for_each` but visiting
only the rules that overlap the filter rule `target`. -/
def classifier_for_each_match (cls : classifier) (target : cls_rule) (inc : Nat)
    (cb : cls_rule → classifier → classifier) :
    classifier × List (cls_rule × classifier) :=
  for_each_tables inc (some target) cb cls.tables cls

/-- The callback family the iteration claims quantify over: remove the
currently visited rule whenever the predicate `P` selects it (the common
flow-mod pattern; `P := fun _ => true` removes every visited rule). -/
def remove_cb (P : cls_rule → Bool) : cls_rule → classifier → classifier :=
  fun r s => if P r then classifier_remove s r else s

/-- The snapshot of rules an iteration is specified against: the rules
present when iteration began, restricted to the selected tables and, for
`for_each_match`, to those overlapping the filter rule. -/
def snapshot_rules (cls : classifier) (inc : Nat) (flt : Option cls_rule) :
    List cls_rule :=
  cls.tables.flatMap fun t =>
    if table_included inc t.wc then filter_rules flt (cls_table_rules t) else []

/-- Invariants I3/I4 on an equal-key chain: strictly descending
priorities (hence no two members with equal priority). -/
def chain_sorted (c : List cls_rule) : Prop :=
  c.Pairwise (fun a b => b.priority < a.priority)

/-- Invariant I1 on a rule: every wildcarded bit of the value is zero. -/
def rule_normal (r : cls_rule) : Prop := maskOff r.flow r.wc = r.flow

/-- Well-formedness of a chain list under table mask `wcv`: chains are
nonempty; every member carries the mask (I2) and is normalised (I1);
members of a chain share the chain's masked value; distinct chains have
distinct keys; every chain is strictly descending by priority (I3/I4). -/
def chains_inv (wcv : Nat) (cs : List (List cls_rule)) : Prop :=
  (∀ c ∈ cs, c ≠ []) ∧
  (∀ c ∈ cs, ∀ r ∈ c, r.wc = wcv ∧ rule_normal r) ∧
  (∀ c ∈ cs, ∀ r ∈ c, maskOff r.flow wcv = chain_key wcv c) ∧
  cs.Pairwise (fun c c2 => chain_key wcv c ≠ chain_key wcv c2) ∧
  (∀ c ∈ cs, chain_sorted c)

/-- Well-formedness of a table: its chain list is well formed under its
mask. -/
def table_inv (t : cls_table) : Prop := chains_inv t.wc t.chains

/-- Well-formedness of a classifier: every table is well formed and
distinct tables have distinct masks. -/
def classifier_inv (cls : classifier) : Prop :=
  (∀ t ∈ cls.tables, table_inv t) ∧
  cls.tables.Pairwise (fun a b => a.wc ≠ b.wc)

instance (r : cls_rule) : Decidable (rule_normal r) := by
  unfold rule_normal; infer_instance

instance (c : List cls_rule) : Decidable (chain_sorted c) := by
  unfold chain_sorted; infer_instance

instance (wcv : Nat) (cs : List (List cls_rule)) : Decidable (chains_inv wcv cs) := by
  unfold chains_inv; infer_instance

instance (t : cls_table) : Decidable (table_inv t) := by
  unfold table_inv; infer_instance

instance (cls : classifier) : Decidable (classifier_inv cls) := by
  unfold classifier_inv; infer_instance

/-! ## Basic facts about the selection flags and lookup -/

theorem land_one_eq_zero (inc : Nat) (h : inc &&& CLS_INC_ALL = 0) : inc &&& 1 = 0 := by
  have h3 : inc &&& 3 = 0 := h
  have e : (3 : Nat) &&& 1 = 1 := by decide
  calc inc &&& 1 = inc &&& (3 &&& 1) := by rw [e]
    _ = (inc &&& 3) &&& 1 := (Nat.and_assoc inc 3 1).symm
    _ = 0 &&& 1 := by rw [h3]
    _ = 0 := Nat.zero_and 1

theorem land_two_eq_zero (inc : Nat) (h : inc &&& CLS_INC_ALL = 0) : inc &&& 2 = 0 := by
  have h3 : inc &&& 3 = 0 := h
  have e : (3 : Nat) &&& 2 = 2 := by decide
  calc inc &&& 2 = inc &&& (3 &&& 2) := by rw [e]
    _ = (inc &&& 3) &&& 2 := (Nat.and_assoc inc 3 2).symm
    _ = 0 &&& 2 := by rw [h3]
    _ = 0 := Nat.zero_and 2

theorem table_included_false (inc : Nat) (h : inc &&& CLS_INC_ALL = 0) (w : Nat) :
    table_included inc w = false := by
  unfold table_included
  rcases hw : (w == 0) with _ | _ <;>
    simp [CLS_INC_EXACT, CLS_INC_WILD, land_one_eq_zero inc h, land_two_eq_zero inc h]

theorem lookup_tables_none_of_excluded (p inc : Nat)
    (hincl : ∀ w, table_included inc w = false) :
    ∀ ts : List cls_table, lookup_tables p inc ts = none := by
  intro ts
  induction ts with
  | nil => rfl
  | cons t ts ih => simp [lookup_tables, hincl t.wc, ih]

/-- C10: a lookup whose include argument selects neither exact-match nor
wildcarded rules returns none, whatever the classifier contains. -/
theorem C10_lookup_empty_include (cls : classifier) (p inc : Nat)
    (h : inc &&& CLS_INC_ALL = 0) : classifier_lookup cls p inc = none := by
  unfold classifier_lookup
  exact lookup_tables_none_of_excluded p inc (table_included_false inc h) cls.tables

/-- Witness for C10 at a concrete nonempty classifier and include = 0. -/
theorem C10_witness :
    (0 : Nat) &&& CLS_INC_ALL = 0 ∧
    classifier_lookup
      { tables := [{ wc := 0, chains := [[⟨5, 0, 7, 1⟩]], n_refs := 0 }] } 5 0 = none :=
  ⟨by decide,
   C10_lookup_empty_include
     { tables := [{ wc := 0, chains := [[⟨5, 0, 7, 1⟩]], n_refs := 0 }] } 5 0 (by decide)⟩

/-! ## C4: rule construction establishes invariant I1 -/

/-- C4: every rule produced by `cls_rule_from_flow` satisfies invariant
I1: each bit marked wildcarded in the rule's mask has the corresponding
bit of the rule's flow value equal to zero. -/
theorem C4_from_flow_I1 (flowv wildcards priority rid k : Nat)
    (h : (cls_rule_from_flow flowv wildcards priority rid).wc.testBit k = true) :
    (cls_rule_from_flow flowv wildcards priority rid).flow.testBit k = false := by
  simp only [cls_rule_from_flow] at h ⊢
  rw [testBit_maskOff, h]
  cases flowv.testBit k <;> rfl

/-- Witness for C4: flow 5, wildcard mask 1, bit 0 is wildcarded and ends
up zero in the constructed rule. -/
theorem C4_witness :
    (cls_rule_from_flow 5 1 7 0).wc.testBit 0 = true ∧
    (cls_rule_from_flow 5 1 7 0).flow.testBit 0 = false :=
  ⟨by decide, C4_from_flow_I1 5 1 7 0 0 (by decide)⟩

/-! ## C6: the exact-match insert path refines the general one -/

/-- C6: for a rule with an all-zero wildcard mask, `classifier_insert_exact`
is observably equivalent to `classifier_insert`: the resulting states are
equal, and a subsequent exact-match lookup agrees. -/
theorem C6_insert_exact_refines_insert (cls : classifier) (r : cls_rule)
    (h0 : r.wc = 0) :
    classifier_insert_exact cls r = (classifier_insert cls r).1 ∧
    ∀ p, classifier_lookup (classifier_insert_exact cls r) p CLS_INC_EXACT =
      classifier_lookup (classifier_insert cls r).1 p CLS_INC_EXACT := by
  have hs : classifier_insert_exact cls r = (classifier_insert cls r).1 := by
    unfold classifier_insert_exact classifier_insert
    rw [h0]
  exact ⟨hs, fun p => by rw [hs]⟩

/-- Witness for C6 at a concrete classifier and exact rule. -/
theorem C6_witness :
    (⟨9, 0, 4, 2⟩ : cls_rule).wc = 0 ∧
    classifier_insert_exact { tables := [] } ⟨9, 0, 4, 2⟩ =
      (classifier_insert { tables := [] } ⟨9, 0, 4, 2⟩).1 :=
  ⟨by decide, (C6_insert_exact_refines_insert { tables := [] } ⟨9, 0, 4, 2⟩ (by decide)).1⟩

/-! ## C3: overlap detection is existence of a common matching header -/

theorem rules_overlap_sound (a b : cls_rule) (ha : rule_normal a) (hb : rule_normal b)
    (h : rules_overlap a b = true) :
    rule_matches (a.flow ||| b.flow) a = true ∧ rule_matches (a.flow ||| b.flow) b = true := by
  unfold rules_overlap at h
  rw [beq_iff_eq] at h
  unfold rule_normal at ha hb
  constructor
  · unfold rule_matches
    rw [beq_iff_eq]
    apply Nat.eq_of_testBit_eq
    intro k
    have hak := congrArg (fun n => Nat.testBit n k) ha
    have hbk := congrArg (fun n => Nat.testBit n k) hb
    have hk := congrArg (fun n => Nat.testBit n k) h
    simp only [testBit_maskOff, Nat.testBit_lor] at hak hbk hk
    simp only [testBit_maskOff, Nat.testBit_lor]
    cases hpa : a.flow.testBit k <;> cases hpb : b.flow.testBit k <;>
      cases hwa : a.wc.testBit k <;> cases hwb : b.wc.testBit k <;> simp_all
  · unfold rule_matches
    rw [beq_iff_eq]
    apply Nat.eq_of_testBit_eq
    intro k
    have hak := congrArg (fun n => Nat.testBit n k) ha
    have hbk := congrArg (fun n => Nat.testBit n k) hb
    have hk := congrArg (fun n => Nat.testBit n k) h
    simp only [testBit_maskOff, Nat.testBit_lor] at hak hbk hk
    simp only [testBit_maskOff, Nat.testBit_lor]
    cases hpa : a.flow.testBit k <;> cases hpb : b.flow.testBit k <;>
      cases hwa : a.wc.testBit k <;> cases hwb : b.wc.testBit k <;> simp_all

theorem rules_overlap_complete (a b : cls_rule) (p : Nat)
    (hma : rule_matches p a = true) (hmb : rule_matches p b = true) :
    rules_overlap a b = true := by
  unfold rule_matches at hma hmb
  rw [beq_iff_eq] at hma hmb
  unfold rules_overlap
  rw [beq_iff_eq]
  apply Nat.eq_of_testBit_eq
  intro k
  have hak := congrArg (fun n => Nat.testBit n k) hma
  have hbk := congrArg (fun n => Nat.testBit n k) hmb
  simp only [testBit_maskOff, Nat.testBit_lor] at hak hbk
  simp only [testBit_maskOff, Nat.testBit_lor]
  cases hp : p.testBit k <;> cases hwa : a.wc.testBit k <;>
    cases hwb : b.wc.testBit k <;> simp_all

theorem classifier_rules_normal (cls : classifier) (hinv : classifier_inv cls) :
    ∀ r ∈ classifier_rules cls, rule_normal r := by
  intro r hr
  unfold classifier_rules at hr
  rw [List.mem_flatMap] at hr
  obtain ⟨t, htm, hrt⟩ := hr
  unfold cls_table_rules at hrt
  rw [List.mem_flatten] at hrt
  obtain ⟨c, hcm, hrc⟩ := hrt
  exact ((hinv.1 t htm).2.1 c hcm r hrc).2

/-- C3: `classifier_rule_overlaps` returns true iff some rule already in
the classifier shares a concrete matching header with the candidate,
independent of priorities. -/
theorem C3_overlap_iff_common_packet (cls : classifier) (target : cls_rule)
    (hinv : classifier_inv cls) (ht : rule_normal target) :
    classifier_rule_overlaps cls target = true ↔
      ∃ r ∈ classifier_rules cls, ∃ p,
        rule_matches p target = true ∧ rule_matches p r = true := by
  unfold classifier_rule_overlaps
  rw [List.any_eq_true]
  constructor
  · rintro ⟨r, hr, hov⟩
    have hrn := classifier_rules_normal cls hinv r hr
    obtain ⟨h1, h2⟩ := rules_overlap_sound target r ht hrn hov
    exact ⟨r, hr, target.flow ||| r.flow, h1, h2⟩
  · rintro ⟨r, hr, p, h1, h2⟩
    exact ⟨r, hr, rules_overlap_complete target r p h1 h2⟩

/-- Witness for C3: one stored rule wildcarding bits 0-1, a candidate
wildcarding bits 0-2; header 4 is matched by both iff the overlap test
fires. -/
theorem C3_witness :
    classifier_inv { tables := [{ wc := 3, chains := [[⟨4, 3, 5, 1⟩]], n_refs := 0 }] } ∧
    rule_normal ⟨0, 7, 9, 2⟩ ∧
    (classifier_rule_overlaps
        { tables := [{ wc := 3, chains := [[⟨4, 3, 5, 1⟩]], n_refs := 0 }] } ⟨0, 7, 9, 2⟩ = true ↔
      ∃ r ∈ classifier_rules
          { tables := [{ wc := 3, chains := [[⟨4, 3, 5, 1⟩]], n_refs := 0 }] }, ∃ p,
        rule_matches p ⟨0, 7, 9, 2⟩ = true ∧ rule_matches p r = true) :=
  ⟨by decide, by decide,
   C3_overlap_iff_common_packet
     { tables := [{ wc := 3, chains := [[⟨4, 3, 5, 1⟩]], n_refs := 0 }] } ⟨0, 7, 9, 2⟩
     (by decide) (by decide)⟩

/-! ## C1: lookup returns the highest-priority matching rule -/

theorem eq_of_pairwise_key {α β : Type} (f : α → β) :
    ∀ (l : List α), l.Pairwise (fun a b => f a ≠ f b) →
      ∀ a ∈ l, ∀ b ∈ l, f a = f b → a = b := by
  intro l hl
  induction hl with
  | nil => intro a ha; exact absurd ha (List.not_mem_nil a)
  | cons hx _ ih =>
    intro a ha b hb hf
    rcases List.mem_cons.1 ha with rfl | ha2
    · rcases List.mem_cons.1 hb with rfl | hb2
      · rfl
      · exact absurd hf (hx b hb2)
    · rcases List.mem_cons.1 hb with rfl | hb2
      · exact absurd hf.symm (hx a ha2)
      · exact ih a ha2 b hb2 hf

theorem chain_matches_iff (wcv key : Nat) (c : List cls_rule) (hc : c ≠ []) :
    chain_matches wcv key c = true ↔ chain_key wcv c = key := by
  cases c with
  | nil => exact absurd rfl hc
  | cons m rest => simp [chain_matches, chain_key]

theorem rule_wc_of_table (t : cls_table) (ht : table_inv t) :
    ∀ r ∈ cls_table_rules t, r.wc = t.wc := by
  intro r hr
  unfold cls_table_rules at hr
  rw [List.mem_flatten] at hr
  obtain ⟨c, hcm, hrc⟩ := hr
  exact (ht.2.1 c hcm r hrc).1

theorem rule_matches_iff_key (t : cls_table) (ht : table_inv t)
    (c : List cls_rule) (hc : c ∈ t.chains) (r : cls_rule) (hr : r ∈ c) (p : Nat) :
    rule_matches p r = true ↔ chain_key t.wc c = maskOff p t.wc := by
  have hwc : r.wc = t.wc := (ht.2.1 c hc r hr).1
  have hnorm : maskOff r.flow r.wc = r.flow := (ht.2.1 c hc r hr).2
  have hkey : maskOff r.flow t.wc = chain_key t.wc c := ht.2.2.1 c hc r hr
  unfold rule_matches
  rw [beq_iff_eq]
  constructor
  · intro h
    rw [← hkey, ← h, hwc, maskOff_maskOff]
  · intro h
    rw [hwc, ← h, ← hkey]
    rw [hwc] at hnorm
    rw [hnorm]

theorem head_max_of_sorted (c : List cls_rule) (hs : chain_sorted c) (hd : cls_rule)
    (hhead : c.head? = some hd) : ∀ r ∈ c, r.priority ≤ hd.priority := by
  cases c with
  | nil => cases hhead
  | cons m rest =>
    cases hhead
    intro r hr
    rcases List.mem_cons.1 hr with rfl | hr2
    · exact Nat.le_refl _
    · exact Nat.le_of_lt (List.rel_of_pairwise_cons hs hr2)

theorem cls_table_lookup_none (t : cls_table) (ht : table_inv t) (p : Nat)
    (h : cls_table_lookup t p = none) :
    ∀ r ∈ cls_table_rules t, rule_matches p r = false := by
  intro r hr
  have hrr := hr
  unfold cls_table_rules at hrr
  rw [List.mem_flatten] at hrr
  obtain ⟨c, hcm, hrc⟩ := hrr
  unfold cls_table_lookup at h
  rcases hf : t.chains.find? (chain_matches t.wc (maskOff p t.wc)) with _ | c0
  · rw [List.find?_eq_none] at hf
    have hnm := hf c hcm
    have hne : c ≠ [] := ht.1 c hcm
    by_contra hmt
    rw [Bool.not_eq_false] at hmt
    have := (rule_matches_iff_key t ht c hcm r hrc p).1 hmt
    exact absurd ((chain_matches_iff t.wc (maskOff p t.wc) c hne).2 this) hnm
  · rw [hf] at h
    have hc0 : c0 ∈ t.chains := List.mem_of_find?_eq_some hf
    have hne : c0 ≠ [] := ht.1 c0 hc0
    cases c0 with
    | nil => exact absurd rfl hne
    | cons m rest => cases h

theorem cls_table_lookup_some (t : cls_table) (ht : table_inv t) (p : Nat) (r : cls_rule)
    (h : cls_table_lookup t p = some r) :
    r ∈ cls_table_rules t ∧ rule_matches p r = true ∧
      ∀ r2 ∈ cls_table_rules t, rule_matches p r2 = true → r2.priority ≤ r.priority := by
  unfold cls_table_lookup at h
  rcases hf : t.chains.find? (chain_matches t.wc (maskOff p t.wc)) with _ | c0
  · rw [hf] at h; cases h
  · rw [hf] at h
    have hc0 : c0 ∈ t.chains := List.mem_of_find?_eq_some hf
    have hne : c0 ≠ [] := ht.1 c0 hc0
    have hpm : chain_matches t.wc (maskOff p t.wc) c0 = true := List.find?_some hf
    have hkey0 : chain_key t.wc c0 = maskOff p t.wc :=
      (chain_matches_iff t.wc (maskOff p t.wc) c0 hne).1 hpm
    have hrc0 : r ∈ c0 := by
      cases c0 with
      | nil => exact absurd rfl hne
      | cons m rest => cases h; exact List.mem_cons_self _ _
    refine ⟨?_, ?_, ?_⟩
    · unfold cls_table_rules
      rw [List.mem_flatten]
      exact ⟨c0, hc0, hrc0⟩
    · exact (rule_matches_iff_key t ht c0 hc0 r hrc0 p).2 hkey0
    · intro r2 hr2 hm2
      have hrr := hr2
      unfold cls_table_rules at hrr
      rw [List.mem_flatten] at hrr
      obtain ⟨c2, hc2m, hrc2⟩ := hrr
      have hkey2 : chain_key t.wc c2 = maskOff p t.wc :=
        (rule_matches_iff_key t ht c2 hc2m r2 hrc2 p).1 hm2
      have hceq : c2 = c0 :=
        eq_of_pairwise_key (chain_key t.wc) t.chains ht.2.2.2.1 c2 hc2m c0 hc0
          (hkey2.trans hkey0.symm)
      subst hceq
      exact head_max_of_sorted c2 (ht.2.2.2.2 c2 hc2m) r h r2 hrc2

theorem lookup_tables_cons (p inc : Nat) (t : cls_table) (ts : List cls_table) :
    lookup_tables p inc (t :: ts) =
      if table_included inc t.wc then
        match cls_table_lookup t p with
        | some r =>
          match lookup_tables p inc ts with
          | some b => if r.priority < b.priority then some b else some r
          | none => some r
        | none => lookup_tables p inc ts
      else lookup_tables p inc ts := rfl

theorem lookup_tables_correct (p inc : Nat) :
    ∀ ts : List cls_table, (∀ t ∈ ts, table_inv t) →
      (lookup_tables p inc ts = none →
        ∀ t ∈ ts, table_included inc t.wc = true →
          ∀ r ∈ cls_table_rules t, rule_matches p r = false) ∧
      (∀ r, lookup_tables p inc ts = some r →
        (∃ t ∈ ts, table_included inc t.wc = true ∧ r ∈ cls_table_rules t) ∧
        rule_matches p r = true ∧
        ∀ t ∈ ts, table_included inc t.wc = true →
          ∀ r2 ∈ cls_table_rules t, rule_matches p r2 = true →
            r2.priority ≤ r.priority) := by
  intro ts
  induction ts with
  | nil =>
    intro _
    exact ⟨fun _ t htm => absurd htm (List.not_mem_nil t), fun r hr => by cases hr⟩
  | cons t ts ih =>
    intro hall
    have htinv : table_inv t := hall t (List.mem_cons_self t ts)
    have htail : ∀ t2 ∈ ts, table_inv t2 := fun t2 h2 => hall t2 (List.mem_cons_of_mem t h2)
    obtain ⟨ihn, ihs⟩ := ih htail
    show (lookup_tables p inc (t :: ts) = none → _) ∧ _
    rcases hinc : table_included inc t.wc with _ | _
    · -- table not selected: result is the tail lookup
      have hred : lookup_tables p inc (t :: ts) = lookup_tables p inc ts := by
        rw [lookup_tables_cons, hinc]
        simp
      constructor
      · intro hnone t2 ht2 hinc2
        rw [hred] at hnone
        rcases List.mem_cons.1 ht2 with rfl | ht2m
        · rw [hinc] at hinc2; cases hinc2
        · exact ihn hnone t2 ht2m hinc2
      · intro r hsome
        rw [hred] at hsome
        obtain ⟨⟨t2, ht2m, ht2i, hrm⟩, hm, hmax⟩ := ihs r hsome
        refine ⟨⟨t2, List.mem_cons_of_mem t ht2m, ht2i, hrm⟩, hm, ?_⟩
        intro t3 ht3 hinc3 r2 hr2 hm2
        rcases List.mem_cons.1 ht3 with rfl | ht3m
        · rw [hinc] at hinc3; cases hinc3
        · exact hmax t3 ht3m hinc3 r2 hr2 hm2
    · -- table selected
      rcases hlt : cls_table_lookup t p with _ | rt
      · -- no candidate from this table
        have hred : lookup_tables p inc (t :: ts) = lookup_tables p inc ts := by
          rw [lookup_tables_cons, hinc, hlt]
          simp
        have hnomatch := cls_table_lookup_none t htinv p hlt
        constructor
        · intro hnone t2 ht2 hinc2
          rw [hred] at hnone
          rcases List.mem_cons.1 ht2 with rfl | ht2m
          · exact hnomatch
          · exact ihn hnone t2 ht2m hinc2
        · intro r hsome
          rw [hred] at hsome
          obtain ⟨⟨t2, ht2m, ht2i, hrm⟩, hm, hmax⟩ := ihs r hsome
          refine ⟨⟨t2, List.mem_cons_of_mem t ht2m, ht2i, hrm⟩, hm, ?_⟩
          intro t3 ht3 hinc3 r2 hr2 hm2
          rcases List.mem_cons.1 ht3 with rfl | ht3m
          · rw [hnomatch r2 hr2] at hm2; cases hm2
          · exact hmax t3 ht3m hinc3 r2 hr2 hm2
      · -- candidate rt from this table
        obtain ⟨hrtm, hrtmat, hrtmax⟩ := cls_table_lookup_some t htinv p rt hlt
        rcases hrest : lookup_tables p inc ts with _ | rb
        · -- no candidate from the tail
          have hred : lookup_tables p inc (t :: ts) = some rt := by
            rw [lookup_tables_cons, hinc, hlt, hrest]
            simp
          constructor
          · intro hnone; rw [hred] at hnone; cases hnone
          · intro r hsome
            rw [hred] at hsome
            cases hsome
            refine ⟨⟨t, List.mem_cons_self t ts, hinc, hrtm⟩, hrtmat, ?_⟩
            intro t3 ht3 hinc3 r2 hr2 hm2
            rcases List.mem_cons.1 ht3 with rfl | ht3m
            · exact hrtmax r2 hr2 hm2
            · rw [ihn hrest t3 ht3m hinc3 r2 hr2] at hm2; cases hm2
        · -- candidates from both: keep the higher priority, head wins ties
          obtain ⟨⟨tb, htbm, htbi, hrbm⟩, hbm, hbmax⟩ := ihs rb hrest
          by_cases hcmp : rt.priority < rb.priority
          · have hred : lookup_tables p inc (t :: ts) = some rb := by
              unfold lookup_tables
              rw [hinc, hlt, hrest]
              simp [hcmp]
            constructor
            · intro hnone; rw [hred] at hnone; cases hnone
            · intro r hsome
              rw [hred] at hsome
              cases hsome
              refine ⟨⟨tb, List.mem_cons_of_mem t htbm, htbi, hrbm⟩, hbm, ?_⟩
              intro t3 ht3 hinc3 r2 hr2 hm2
              rcases List.mem_cons.1 ht3 with rfl | ht3m
              · exact Nat.le_trans (hrtmax r2 hr2 hm2) (Nat.le_of_lt hcmp)
              · exact hbmax t3 ht3m hinc3 r2 hr2 hm2
          · have hred : lookup_tables p inc (t :: ts) = some rt := by
              unfold lookup_tables
              rw [hinc, hlt, hrest]
              simp [hcmp]
            have hble : rb.priority ≤ rt.priority := Nat.le_of_not_lt hcmp
            constructor
            · intro hnone; rw [hred] at hnone; cases hnone
            · intro r hsome
              rw [hred] at hsome
              cases hsome
              refine ⟨⟨t, List.mem_cons_self t ts, hinc, hrtm⟩, hrtmat, ?_⟩
              intro t3 ht3 hinc3 r2 hr2 hm2
              rcases List.mem_cons.1 ht3 with rfl | ht3m
              · exact hrtmax r2 hr2 hm2
              · exact Nat.le_trans (hbmax t3 ht3m hinc3 r2 hr2 hm2) hble

theorem classifier_rules_mem_iff (cls : classifier) (r : cls_rule) :
    r ∈ classifier_rules cls ↔ ∃ t ∈ cls.tables, r ∈ cls_table_rules t := by
  unfold classifier_rules
  exact List.mem_flatMap

/-- C1: `classifier_lookup` returns a rule of numerically highest priority
among all rules matching the record under the include-flag selection
(specificity plays no role), and returns none exactly when no selected
rule matches. -/
theorem C1_lookup_highest_priority (cls : classifier) (p inc : Nat)
    (hinv : classifier_inv cls) :
    (classifier_lookup cls p inc = none ↔
      ∀ r ∈ classifier_rules cls,
        table_included inc r.wc = true → rule_matches p r = false) ∧
    (∀ r, classifier_lookup cls p inc = some r →
      r ∈ classifier_rules cls ∧ table_included inc r.wc = true ∧
      rule_matches p r = true ∧
      ∀ r2 ∈ classifier_rules cls, table_included inc r2.wc = true →
        rule_matches p r2 = true → r2.priority ≤ r.priority) := by
  obtain ⟨hn, hs⟩ := lookup_tables_correct p inc cls.tables hinv.1
  have hbridge : ∀ r ∈ classifier_rules cls,
      ∃ t ∈ cls.tables, r ∈ cls_table_rules t ∧ r.wc = t.wc := by
    intro r hr
    rw [classifier_rules_mem_iff] at hr
    obtain ⟨t, htm, hrt⟩ := hr
    exact ⟨t, htm, hrt, rule_wc_of_table t (hinv.1 t htm) r hrt⟩
  constructor
  · constructor
    · intro hnone r hr hri
      obtain ⟨t, htm, hrt, hwc⟩ := hbridge r hr
      rw [hwc] at hri
      exact hn hnone t htm hri r hrt
    · intro hall
      rcases hres : classifier_lookup cls p inc with _ | r
      · rfl
      · have hres2 : lookup_tables p inc cls.tables = some r := hres
        obtain ⟨⟨t, htm, hti, hrt⟩, hm, _⟩ := hs r hres2
        have hwc : r.wc = t.wc := rule_wc_of_table t (hinv.1 t htm) r hrt
        have hfalse : rule_matches p r = false :=
          hall r ((classifier_rules_mem_iff cls r).2 ⟨t, htm, hrt⟩)
            (by rw [hwc]; exact hti)
        rw [hm] at hfalse
        cases hfalse
  · intro r hres
    have hres2 : lookup_tables p inc cls.tables = some r := hres
    obtain ⟨⟨t, htm, hti, hrt⟩, hm, hmax⟩ := hs r hres2
    have hwc : r.wc = t.wc := rule_wc_of_table t (hinv.1 t htm) r hrt
    refine ⟨(classifier_rules_mem_iff cls r).2 ⟨t, htm, hrt⟩,
      by rw [hwc]; exact hti, hm, ?_⟩
    intro r2 hr2 hri2 hm2
    obtain ⟨t2, ht2m, hrt2, hwc2⟩ := hbridge r2 hr2
    rw [hwc2] at hri2
    exact hmax t2 ht2m hri2 r2 hrt2 hm2

/-- Witness for C1: an exact rule of priority 1 and a wildcarded rule of
priority 5 both match header 13; the lookup answer is the priority-5 rule
even though the priority-1 rule is an exact structural match. -/
theorem C1_witness :
    classifier_inv
      { tables := [⟨0, [[⟨13, 0, 1, 2⟩]], 0⟩, ⟨3, [[⟨12, 3, 5, 1⟩]], 0⟩] } ∧
    ((⟨12, 3, 5, 1⟩ : cls_rule) ∈ classifier_rules
        { tables := [⟨0, [[⟨13, 0, 1, 2⟩]], 0⟩, ⟨3, [[⟨12, 3, 5, 1⟩]], 0⟩] } ∧
      table_included 3 (⟨12, 3, 5, 1⟩ : cls_rule).wc = true ∧
      rule_matches 13 ⟨12, 3, 5, 1⟩ = true ∧
      ∀ r2 ∈ classifier_rules
          { tables := [⟨0, [[⟨13, 0, 1, 2⟩]], 0⟩, ⟨3, [[⟨12, 3, 5, 1⟩]], 0⟩] },
        table_included 3 r2.wc = true → rule_matches 13 r2 = true →
          r2.priority ≤ (⟨12, 3, 5, 1⟩ : cls_rule).priority) :=
  ⟨by decide,
   (C1_lookup_highest_priority
       { tables := [⟨0, [[⟨13, 0, 1, 2⟩]], 0⟩, ⟨3, [[⟨12, 3, 5, 1⟩]], 0⟩] } 13 3
       (by decide)).2 ⟨12, 3, 5, 1⟩ (by decide)⟩

/-! ## C2: insert displaces exactly the equal-priority chain member -/

theorem chain_insert_subset (r : cls_rule) :
    ∀ c : List cls_rule, ∀ x ∈ (chain_insert r c).1, x = r ∨ x ∈ c := by
  intro c
  induction c with
  | nil =>
    intro x hx
    unfold chain_insert at hx
    rcases List.mem_cons.1 hx with rfl | hx2
    · exact Or.inl rfl
    · exact absurd hx2 (List.not_mem_nil x)
  | cons m rest ih =>
    intro x hx
    unfold chain_insert at hx
    by_cases hpe : r.priority == m.priority
    · rw [if_pos hpe] at hx
      rcases List.mem_cons.1 hx with rfl | hx2
      · exact Or.inl rfl
      · exact Or.inr (List.mem_cons_of_mem m hx2)
    · rw [if_neg hpe] at hx
      by_cases hlt : m.priority < r.priority
      · rw [if_pos hlt] at hx
        rcases List.mem_cons.1 hx with rfl | hx2
        · exact Or.inl rfl
        · exact Or.inr hx2
      · rw [if_neg hlt] at hx
        rcases List.mem_cons.1 hx with rfl | hx2
        · exact Or.inr (List.mem_cons_self _ _)
        · rcases ih x hx2 with h | h
          · exact Or.inl h
          · exact Or.inr (List.mem_cons_of_mem m h)

theorem chain_insert_self (r : cls_rule) :
    ∀ c : List cls_rule, r ∈ (chain_insert r c).1 := by
  intro c
  induction c with
  | nil => exact List.mem_cons_self _ _
  | cons m rest ih =>
    unfold chain_insert
    by_cases hpe : r.priority == m.priority
    · rw [if_pos hpe]; exact List.mem_cons_self _ _
    · rw [if_neg hpe]
      by_cases hlt : m.priority < r.priority
      · rw [if_pos hlt]; exact List.mem_cons_self _ _
      · rw [if_neg hlt]; exact List.mem_cons_of_mem m ih

theorem chain_insert_displaced (r : cls_rule) :
    ∀ c : List cls_rule, chain_sorted c →
      (((chain_insert r c).2.isSome = true ↔ ∃ m ∈ c, m.priority = r.priority) ∧
       (∀ m, (chain_insert r c).2 = some m → m ∈ c ∧ m.priority = r.priority)) := by
  intro c
  induction c with
  | nil =>
    intro _
    constructor
    · constructor
      · intro h; cases h
      · rintro ⟨m, hm, _⟩; exact absurd hm (List.not_mem_nil m)
    · intro m hm; cases hm
  | cons m rest ih =>
    intro hs
    have hstail : chain_sorted rest := List.Pairwise.of_cons hs
    obtain ⟨ih1, ih2⟩ := ih hstail
    unfold chain_insert
    by_cases hpe : r.priority == m.priority
    · rw [if_pos hpe]
      have hpe2 : m.priority = r.priority := (beq_iff_eq.mp hpe).symm
      constructor
      · constructor
        · intro _; exact ⟨m, List.mem_cons_self _ _, hpe2⟩
        · intro _; rfl
      · intro m2 hm2
        cases hm2
        exact ⟨List.mem_cons_self _ _, hpe2⟩
    · rw [if_neg hpe]
      have hne : ¬ r.priority = m.priority := by
        intro h; exact hpe (beq_iff_eq.mpr h)
      by_cases hlt : m.priority < r.priority
      · rw [if_pos hlt]
        constructor
        · constructor
          · intro h; cases h
          · rintro ⟨m2, hm2, hp2⟩
            rcases List.mem_cons.1 hm2 with rfl | hm2t
            · exact absurd hp2.symm hne
            · have := List.rel_of_pairwise_cons hs hm2t
              omega
        · intro m2 hm2; cases hm2
      · rw [if_neg hlt]
        constructor
        · constructor
          · intro h
            obtain ⟨m2, hm2, hp2⟩ := ih1.1 h
            exact ⟨m2, List.mem_cons_of_mem m hm2, hp2⟩
          · rintro ⟨m2, hm2, hp2⟩
            rcases List.mem_cons.1 hm2 with rfl | hm2t
            · exact absurd hp2.symm hne
            · exact ih1.2 ⟨m2, hm2t, hp2⟩
        · intro m2 hm2
          obtain ⟨hmem, hp⟩ := ih2 m2 hm2
          exact ⟨List.mem_cons_of_mem m hmem, hp⟩

theorem chains_insert_subset (wcv key : Nat) (r : cls_rule) :
    ∀ cs : List (List cls_rule), ∀ x : cls_rule,
      (∃ c2 ∈ (chains_insert wcv key r cs).1, x ∈ c2) →
      x = r ∨ ∃ c ∈ cs, x ∈ c := by
  intro cs
  induction cs with
  | nil =>
    rintro x ⟨c2, hc2, hx⟩
    unfold chains_insert at hc2
    rcases List.mem_cons.1 hc2 with rfl | hc2t
    · rcases List.mem_cons.1 hx with rfl | hx2
      · exact Or.inl rfl
      · exact absurd hx2 (List.not_mem_nil x)
    · exact absurd hc2t (List.not_mem_nil c2)
  | cons c cs ih =>
    rintro x ⟨c2, hc2, hx⟩
    unfold chains_insert at hc2
    by_cases hcm : chain_matches wcv key c
    · rw [if_pos hcm] at hc2
      rcases List.mem_cons.1 hc2 with rfl | hc2t
      · rcases chain_insert_subset r c x hx with h | h
        · exact Or.inl h
        · exact Or.inr ⟨c, List.mem_cons_self _ _, h⟩
      · exact Or.inr ⟨c2, List.mem_cons_of_mem c hc2t, hx⟩
    · rw [if_neg hcm] at hc2
      rcases List.mem_cons.1 hc2 with rfl | hc2t
      · exact Or.inr ⟨c2, List.mem_cons_self _ _, hx⟩
      · rcases ih x ⟨c2, hc2t, hx⟩ with h | ⟨c3, hc3, hx3⟩
        · exact Or.inl h
        · exact Or.inr ⟨c3, List.mem_cons_of_mem c hc3, hx3⟩

theorem chains_insert_self (wcv key : Nat) (r : cls_rule) :
    ∀ cs : List (List cls_rule), ∃ c ∈ (chains_insert wcv key r cs).1, r ∈ c := by
  intro cs
  induction cs with
  | nil => exact ⟨[r], List.mem_cons_self _ _, List.mem_cons_self _ _⟩
  | cons c cs ih =>
    unfold chains_insert
    by_cases hcm : chain_matches wcv key c
    · rw [if_pos hcm]
      exact ⟨(chain_insert r c).1, List.mem_cons_self _ _, chain_insert_self r c⟩
    · rw [if_neg hcm]
      obtain ⟨c2, hc2, hr⟩ := ih
      exact ⟨c2, List.mem_cons_of_mem c hc2, hr⟩

theorem chains_insert_displaced (wcv key : Nat) (r : cls_rule) :
    ∀ cs : List (List cls_rule),
      (∀ c ∈ cs, c ≠ []) →
      (∀ c ∈ cs, ∀ m ∈ c, maskOff m.flow wcv = chain_key wcv c) →
      cs.Pairwise (fun c c2 => chain_key wcv c ≠ chain_key wcv c2) →
      (∀ c ∈ cs, chain_sorted c) →
      (((chains_insert wcv key r cs).2.isSome = true ↔
        ∃ m, (∃ c ∈ cs, m ∈ c) ∧ maskOff m.flow wcv = key ∧ m.priority = r.priority) ∧
       (∀ m, (chains_insert wcv key r cs).2 = some m →
        (∃ c ∈ cs, m ∈ c) ∧ maskOff m.flow wcv = key ∧ m.priority = r.priority)) := by
  intro cs
  induction cs with
  | nil =>
    intro _ _ _ _
    constructor
    · constructor
      · intro h; cases h
      · rintro ⟨m, ⟨c, hc, _⟩, _, _⟩; exact absurd hc (List.not_mem_nil c)
    · intro m hm; cases hm
  | cons c cs ih =>
    intro h1 h2 hpw hsort
    have h1t : ∀ c2 ∈ cs, c2 ≠ [] := fun c2 h => h1 c2 (List.mem_cons_of_mem c h)
    have h2t : ∀ c2 ∈ cs, ∀ m ∈ c2, maskOff m.flow wcv = chain_key wcv c2 :=
      fun c2 h => h2 c2 (List.mem_cons_of_mem c h)
    have hpwt := List.Pairwise.of_cons hpw
    have hsortt : ∀ c2 ∈ cs, chain_sorted c2 :=
      fun c2 h => hsort c2 (List.mem_cons_of_mem c h)
    obtain ⟨ih1, ih2⟩ := ih h1t h2t hpwt hsortt
    have hcmem : c ∈ c :: cs := List.mem_cons_self _ _
    unfold chains_insert
    by_cases hcm : chain_matches wcv key c
    · rw [if_pos hcm]
      have hne : c ≠ [] := h1 c hcmem
      have hkeyc : chain_key wcv c = key := (chain_matches_iff wcv key c hne).1 hcm
      obtain ⟨ci1, ci2⟩ := chain_insert_displaced r c (hsort c hcmem)
      constructor
      · constructor
        · intro h
          obtain ⟨m, hm, hp⟩ := ci1.1 h
          exact ⟨m, ⟨c, hcmem, hm⟩, by rw [h2 c hcmem m hm, hkeyc], hp⟩
        · rintro ⟨m, ⟨c2, hc2, hm2⟩, hmk, hp⟩
          rcases List.mem_cons.1 hc2 with rfl | hc2t
          · exact ci1.2 ⟨m, hm2, hp⟩
          · have hkc2 : chain_key wcv c2 = key := by rw [← h2t c2 hc2t m hm2, hmk]
            have := List.rel_of_pairwise_cons hpw hc2t
            exact absurd (hkeyc.trans hkc2.symm) this
      · intro m hm
        obtain ⟨hmem, hp⟩ := ci2 m hm
        exact ⟨⟨c, hcmem, hmem⟩, by rw [h2 c hcmem m hmem, hkeyc], hp⟩
    · rw [if_neg hcm]
      have hne : c ≠ [] := h1 c hcmem
      have hkeyc : chain_key wcv c ≠ key := by
        intro h
        exact hcm ((chain_matches_iff wcv key c hne).2 h)
      constructor
      · constructor
        · intro h
          obtain ⟨m, ⟨c2, hc2, hm2⟩, hmk, hp⟩ := ih1.1 h
          exact ⟨m, ⟨c2, List.mem_cons_of_mem c hc2, hm2⟩, hmk, hp⟩
        · rintro ⟨m, ⟨c2, hc2, hm2⟩, hmk, hp⟩
          rcases List.mem_cons.1 hc2 with rfl | hc2t
          · exact absurd (by rw [← h2 c2 hcmem m hm2, hmk]) hkeyc
          · exact ih1.2 ⟨m, ⟨c2, hc2t, hm2⟩, hmk, hp⟩
      · intro m hm
        obtain ⟨⟨c2, hc2, hm2⟩, hmk, hp⟩ := ih2 m hm
        exact ⟨⟨c2, List.mem_cons_of_mem c hc2, hm2⟩, hmk, hp⟩

theorem tables_insert_displaced (r : cls_rule) :
    ∀ ts : List cls_table,
      (∀ t ∈ ts, table_inv t) →
      ts.Pairwise (fun a b => a.wc ≠ b.wc) →
      (((tables_insert r.wc r ts).2.isSome = true ↔
        ∃ m, (∃ t ∈ ts, m ∈ cls_table_rules t) ∧ m.wc = r.wc ∧
          maskOff m.flow r.wc = maskOff r.flow r.wc ∧ m.priority = r.priority) ∧
       (∀ m, (tables_insert r.wc r ts).2 = some m →
        (∃ t ∈ ts, m ∈ cls_table_rules t) ∧ m.wc = r.wc ∧
          maskOff m.flow r.wc = maskOff r.flow r.wc ∧ m.priority = r.priority)) := by
  intro ts
  induction ts with
  | nil =>
    intro _ _
    constructor
    · constructor
      · intro h; cases h
      · rintro ⟨m, ⟨t, ht, _⟩, _⟩; exact absurd ht (List.not_mem_nil t)
    · intro m hm; cases hm
  | cons t ts ih =>
    intro hall hpw
    have hallt : ∀ t2 ∈ ts, table_inv t2 := fun t2 h => hall t2 (List.mem_cons_of_mem t h)
    obtain ⟨ih1, ih2⟩ := ih hallt (List.Pairwise.of_cons hpw)
    have htmem : t ∈ t :: ts := List.mem_cons_self _ _
    obtain ⟨i1, i2, i3, i4, i5⟩ := hall t htmem
    unfold tables_insert
    by_cases htw : t.wc == r.wc
    · rw [if_pos htw]
      have htweq : t.wc = r.wc := beq_iff_eq.mp htw
      obtain ⟨cd1, cd2⟩ := chains_insert_displaced t.wc (maskOff r.flow t.wc) r t.chains i1 i3 i4 i5
      have hres2 : (cls_table_insert r t).2 = (chains_insert t.wc (maskOff r.flow t.wc) r t.chains).2 := rfl
      constructor
      · rw [hres2]
        constructor
        · intro h
          obtain ⟨m, ⟨c, hc, hm⟩, hmk, hp⟩ := cd1.1 h
          have hmwc : m.wc = t.wc := (i2 c hc m hm).1
          refine ⟨m, ⟨t, htmem, ?_⟩, hmwc.trans htweq, ?_, hp⟩
          · unfold cls_table_rules; rw [List.mem_flatten]; exact ⟨c, hc, hm⟩
          · rw [← htweq]; exact hmk
        · rintro ⟨m, ⟨t2, ht2, hmt2⟩, hmwc, hmk, hp⟩
          rcases List.mem_cons.1 ht2 with rfl | ht2t
          · have hmc := hmt2
            unfold cls_table_rules at hmc
            rw [List.mem_flatten] at hmc
            obtain ⟨c, hc, hm⟩ := hmc
            apply cd1.2
            exact ⟨m, ⟨c, hc, hm⟩, by rw [htweq]; exact hmk, hp⟩
          · have hmwc2 : m.wc = t2.wc := rule_wc_of_table t2 (hallt t2 ht2t) m hmt2
            have : t.wc ≠ t2.wc := List.rel_of_pairwise_cons hpw ht2t
            exact absurd (htweq.trans (hmwc.symm.trans hmwc2)) this
      · intro m hm
        rw [hres2] at hm
        obtain ⟨⟨c, hc, hmem⟩, hmk, hp⟩ := cd2 m hm
        have hmwc : m.wc = t.wc := (i2 c hc m hmem).1
        refine ⟨⟨t, htmem, ?_⟩, hmwc.trans htweq, ?_, hp⟩
        · unfold cls_table_rules; rw [List.mem_flatten]; exact ⟨c, hc, hmem⟩
        · rw [← htweq]; exact hmk
    · rw [if_neg htw]
      have htwne : t.wc ≠ r.wc := by
        intro h; exact htw (beq_iff_eq.mpr h)
      constructor
      · constructor
        · intro h
          obtain ⟨m, ⟨t2, ht2, hmt2⟩, hmwc, hmk, hp⟩ := ih1.1 h
          exact ⟨m, ⟨t2, List.mem_cons_of_mem t ht2, hmt2⟩, hmwc, hmk, hp⟩
        · rintro ⟨m, ⟨t2, ht2, hmt2⟩, hmwc, hmk, hp⟩
          rcases List.mem_cons.1 ht2 with rfl | ht2t
          · have : m.wc = t2.wc := rule_wc_of_table t2 (hall t2 htmem) m hmt2
            exact absurd (this.symm.trans hmwc) htwne
          · exact ih1.2 ⟨m, ⟨t2, ht2t, hmt2⟩, hmwc, hmk, hp⟩
      · intro m hm
        obtain ⟨⟨t2, ht2, hmt2⟩, hmwc, hmk, hp⟩ := ih2 m hm
        exact ⟨⟨t2, List.mem_cons_of_mem t ht2, hmt2⟩, hmwc, hmk, hp⟩

theorem tables_insert_mem_self (target : Nat) (r : cls_rule) :
    ∀ ts : List cls_table,
      ∃ t2 ∈ (tables_insert target r ts).1, ∃ c ∈ t2.chains, r ∈ c := by
  intro ts
  induction ts with
  | nil =>
    refine ⟨{ wc := target, chains := [[r]], n_refs := 0 }, List.mem_cons_self _ _,
      [r], List.mem_cons_self _ _, List.mem_cons_self _ _⟩
  | cons t ts ih =>
    unfold tables_insert
    by_cases htw : t.wc == target
    · rw [if_pos htw]
      obtain ⟨c, hc, hr⟩ := chains_insert_self t.wc (maskOff r.flow t.wc) r t.chains
      exact ⟨(cls_table_insert r t).1, List.mem_cons_self _ _, c, hc, hr⟩
    · rw [if_neg htw]
      obtain ⟨t2, ht2, hc⟩ := ih
      exact ⟨t2, List.mem_cons_of_mem t ht2, hc⟩

/-- C2: `classifier_insert` displaces a rule exactly when the chain for
the inserted rule's mask and masked value already holds a member of equal
priority; that member is the one returned.  The concrete A/B/C scenario:
after inserting A(10), B(20), C(20) with identical mask and value,
insert(C) returns B and exactly one priority-20 rule (namely C) remains. -/
theorem C2_insert_replaces_equal_priority (cls : classifier) (r : cls_rule)
    (hinv : classifier_inv cls) :
    (((classifier_insert cls r).2.isSome = true ↔
      ∃ m ∈ classifier_rules cls, m.wc = r.wc ∧
        maskOff m.flow r.wc = maskOff r.flow r.wc ∧ m.priority = r.priority) ∧
     (∀ m, (classifier_insert cls r).2 = some m →
       m ∈ classifier_rules cls ∧ m.wc = r.wc ∧
         maskOff m.flow r.wc = maskOff r.flow r.wc ∧ m.priority = r.priority) ∧
     r ∈ classifier_rules (classifier_insert cls r).1) ∧
    ((classifier_insert
        ((classifier_insert
          ((classifier_insert { tables := [] } ⟨5, 0, 10, 1⟩).1) ⟨5, 0, 20, 2⟩).1)
        ⟨5, 0, 20, 3⟩).2 = some ⟨5, 0, 20, 2⟩ ∧
     (classifier_rules
        (classifier_insert
          ((classifier_insert
            ((classifier_insert { tables := [] } ⟨5, 0, 10, 1⟩).1) ⟨5, 0, 20, 2⟩).1)
          ⟨5, 0, 20, 3⟩).1).filter (fun x => x.priority == 20) = [⟨5, 0, 20, 3⟩]) := by
  obtain ⟨td1, td2⟩ := tables_insert_displaced r cls.tables hinv.1 hinv.2
  refine ⟨⟨?_, ?_, ?_⟩, by decide, by decide⟩
  · have hres2 : (classifier_insert cls r).2 = (tables_insert r.wc r cls.tables).2 := rfl
    rw [hres2, td1]
    constructor
    · rintro ⟨m, ⟨t, ht, hmt⟩, hrest⟩
      exact ⟨m, (classifier_rules_mem_iff cls m).2 ⟨t, ht, hmt⟩, hrest⟩
    · rintro ⟨m, hm, hrest⟩
      obtain ⟨t, ht, hmt⟩ := (classifier_rules_mem_iff cls m).1 hm
      exact ⟨m, ⟨t, ht, hmt⟩, hrest⟩
  · intro m hm
    have hres2 : (classifier_insert cls r).2 = (tables_insert r.wc r cls.tables).2 := rfl
    rw [hres2] at hm
    obtain ⟨⟨t, ht, hmt⟩, hrest⟩ := td2 m hm
    exact ⟨(classifier_rules_mem_iff cls m).2 ⟨t, ht, hmt⟩, hrest⟩
  · obtain ⟨t2, ht2, c, hc, hr⟩ := tables_insert_mem_self r.wc r cls.tables
    refine (classifier_rules_mem_iff (classifier_insert cls r).1 r).2 ⟨t2, ht2, ?_⟩
    unfold cls_table_rules
    rw [List.mem_flatten]
    exact ⟨c, hc, hr⟩

/-- Witness for C2: in a classifier holding one rule of mask 0, value 5,
priority 20, inserting a same-key priority-20 rule displaces it. -/
theorem C2_witness :
    classifier_inv { tables := [⟨0, [[⟨5, 0, 20, 2⟩]], 0⟩] } ∧
    ((classifier_insert { tables := [⟨0, [[⟨5, 0, 20, 2⟩]], 0⟩] } ⟨5, 0, 20, 3⟩).2.isSome = true ↔
      ∃ m ∈ classifier_rules { tables := [⟨0, [[⟨5, 0, 20, 2⟩]], 0⟩] },
        m.wc = (⟨5, 0, 20, 3⟩ : cls_rule).wc ∧
        maskOff m.flow (⟨5, 0, 20, 3⟩ : cls_rule).wc =
          maskOff (⟨5, 0, 20, 3⟩ : cls_rule).flow (⟨5, 0, 20, 3⟩ : cls_rule).wc ∧
        m.priority = (⟨5, 0, 20, 3⟩ : cls_rule).priority) :=
  ⟨by decide,
   ((C2_insert_replaces_equal_priority { tables := [⟨0, [[⟨5, 0, 20, 2⟩]], 0⟩] }
      ⟨5, 0, 20, 3⟩ (by decide)).1).1⟩

/-! ## C5: the chain invariants are preserved by every operation -/

theorem chain_insert_sorted (r : cls_rule) :
    ∀ c : List cls_rule, chain_sorted c → chain_sorted (chain_insert r c).1 := by
  intro c
  induction c with
  | nil => intro _; exact List.pairwise_singleton _ _
  | cons m rest ih =>
    intro hs
    have hstail : chain_sorted rest := List.Pairwise.of_cons hs
    have hrel : ∀ x ∈ rest, x.priority < m.priority :=
      fun x hx => List.rel_of_pairwise_cons hs hx
    unfold chain_insert
    by_cases hpe : r.priority == m.priority
    · rw [if_pos hpe]
      have heq : r.priority = m.priority := beq_iff_eq.mp hpe
      exact List.pairwise_cons.2 ⟨fun x hx => heq ▸ hrel x hx, hstail⟩
    · rw [if_neg hpe]
      have hne : r.priority ≠ m.priority := fun h => hpe (beq_iff_eq.mpr h)
      by_cases hlt : m.priority < r.priority
      · rw [if_pos hlt]
        refine List.pairwise_cons.2 ⟨?_, hs⟩
        intro x hx
        rcases List.mem_cons.1 hx with rfl | hx2
        · exact hlt
        · exact Nat.lt_trans (hrel x hx2) hlt
      · rw [if_neg hlt]
        have hgt : r.priority < m.priority := by omega
        refine List.pairwise_cons.2 ⟨?_, ih hstail⟩
        intro x hx
        rcases chain_insert_subset r rest x hx with rfl | hx2
        · exact hgt
        · exact hrel x hx2

theorem chain_insert_ne_nil (r : cls_rule) (c : List cls_rule) :
    (chain_insert r c).1 ≠ [] :=
  List.ne_nil_of_mem (chain_insert_self r c)

theorem chain_key_of_members (wcv K : Nat) (d : List cls_rule) (hne : d ≠ [])
    (h : ∀ m ∈ d, maskOff m.flow wcv = K) : chain_key wcv d = K := by
  cases d with
  | nil => exact absurd rfl hne
  | cons m rest => exact h m (List.mem_cons_self _ _)

theorem chain_insert_key (wcv : Nat) (r : cls_rule) (c : List cls_rule)
    (hc : c = [] ∨ chain_matches wcv (maskOff r.flow wcv) c = true) :
    chain_key wcv (chain_insert r c).1 = maskOff r.flow wcv := by
  cases c with
  | nil => rfl
  | cons m rest =>
    rcases hc with hnil | hcm
    · cases hnil
    · have hkey : maskOff m.flow wcv = maskOff r.flow wcv := by
        have : chain_key wcv (m :: rest) = maskOff r.flow wcv :=
          (chain_matches_iff wcv (maskOff r.flow wcv) (m :: rest) (by simp)).1 hcm
        exact this
      unfold chain_insert
      by_cases hpe : r.priority == m.priority
      · rw [if_pos hpe]; rfl
      · rw [if_neg hpe]
        by_cases hlt : m.priority < r.priority
        · rw [if_pos hlt]; rfl
        · rw [if_neg hlt]
          show chain_key wcv (m :: (chain_insert r rest).1) = maskOff r.flow wcv
          exact hkey

theorem chains_insert_keys (wcv : Nat) (r : cls_rule) :
    ∀ cs : List (List cls_rule),
      ∀ c2 ∈ (chains_insert wcv (maskOff r.flow wcv) r cs).1,
        chain_key wcv c2 = maskOff r.flow wcv ∨
          ∃ c0 ∈ cs, chain_key wcv c2 = chain_key wcv c0 := by
  intro cs
  induction cs with
  | nil =>
    intro c2 hc2
    rcases List.mem_cons.1 hc2 with rfl | h
    · exact Or.inl rfl
    · exact absurd h (List.not_mem_nil c2)
  | cons c cs ih =>
    intro c2 hc2
    unfold chains_insert at hc2
    by_cases hcm : chain_matches wcv (maskOff r.flow wcv) c
    · rw [if_pos hcm] at hc2
      rcases List.mem_cons.1 hc2 with rfl | hc2t
      · exact Or.inl (chain_insert_key wcv r c (Or.inr hcm))
      · exact Or.inr ⟨c2, List.mem_cons_of_mem c hc2t, rfl⟩
    · rw [if_neg hcm] at hc2
      rcases List.mem_cons.1 hc2 with rfl | hc2t
      · exact Or.inr ⟨c2, List.mem_cons_self _ _, rfl⟩
      · rcases ih c2 hc2t with h | ⟨c0, hc0, hk⟩
        · exact Or.inl h
        · exact Or.inr ⟨c0, List.mem_cons_of_mem c hc0, hk⟩

theorem chains_insert_inv (wcv : Nat) (r : cls_rule) (hw : r.wc = wcv)
    (hn : rule_normal r) :
    ∀ cs : List (List cls_rule), chains_inv wcv cs →
      chains_inv wcv (chains_insert wcv (maskOff r.flow wcv) r cs).1 := by
  intro cs
  induction cs with
  | nil =>
    intro _
    refine ⟨?_, ?_, ?_, ?_, ?_⟩
    · intro c hc
      rcases List.mem_cons.1 hc with rfl | h
      · simp
      · exact absurd h (List.not_mem_nil c)
    · intro c hc m hm
      rcases List.mem_cons.1 hc with rfl | h
      · rcases List.mem_cons.1 hm with rfl | h2
        · exact ⟨hw, hn⟩
        · exact absurd h2 (List.not_mem_nil m)
      · exact absurd h (List.not_mem_nil c)
    · intro c hc m hm
      rcases List.mem_cons.1 hc with rfl | h
      · rcases List.mem_cons.1 hm with rfl | h2
        · rfl
        · exact absurd h2 (List.not_mem_nil m)
      · exact absurd h (List.not_mem_nil c)
    · exact List.pairwise_singleton _ _
    · intro c hc
      rcases List.mem_cons.1 hc with rfl | h
      · exact List.pairwise_singleton _ _
      · exact absurd h (List.not_mem_nil c)
  | cons c cs ih =>
    rintro ⟨h1, h2, h3, h4, h5⟩
    have hcmem : c ∈ c :: cs := List.mem_cons_self _ _
    have h1t : ∀ c2 ∈ cs, c2 ≠ [] := fun c2 h => h1 c2 (List.mem_cons_of_mem c h)
    have h2t : ∀ c2 ∈ cs, ∀ m ∈ c2, m.wc = wcv ∧ rule_normal m :=
      fun c2 h => h2 c2 (List.mem_cons_of_mem c h)
    have h3t : ∀ c2 ∈ cs, ∀ m ∈ c2, maskOff m.flow wcv = chain_key wcv c2 :=
      fun c2 h => h3 c2 (List.mem_cons_of_mem c h)
    have h4t := List.Pairwise.of_cons h4
    have h5t : ∀ c2 ∈ cs, chain_sorted c2 :=
      fun c2 h => h5 c2 (List.mem_cons_of_mem c h)
    unfold chains_insert
    by_cases hcm : chain_matches wcv (maskOff r.flow wcv) c
    · rw [if_pos hcm]
      have hne : c ≠ [] := h1 c hcmem
      have hkeyc : chain_key wcv c = maskOff r.flow wcv :=
        (chain_matches_iff wcv (maskOff r.flow wcv) c hne).1 hcm
      have hnewkey : chain_key wcv (chain_insert r c).1 = maskOff r.flow wcv :=
        chain_insert_key wcv r c (Or.inr hcm)
      refine ⟨?_, ?_, ?_, ?_, ?_⟩
      · intro c2 hc2
        rcases List.mem_cons.1 hc2 with rfl | h
        · exact chain_insert_ne_nil r c
        · exact h1t c2 h
      · intro c2 hc2 m hm
        rcases List.mem_cons.1 hc2 with rfl | h
        · rcases chain_insert_subset r c m hm with rfl | hmem2
          · exact ⟨hw, hn⟩
          · exact h2 c hcmem m hmem2
        · exact h2t c2 h m hm
      · intro c2 hc2 m hm
        rcases List.mem_cons.1 hc2 with rfl | h
        · rw [hnewkey]
          rcases chain_insert_subset r c m hm with rfl | h2
          · rfl
          · rw [h3 c hcmem m h2, hkeyc]
        · exact h3t c2 h m hm
      · refine List.pairwise_cons.2 ⟨?_, h4t⟩
        intro c2 hc2
        rw [hnewkey, ← hkeyc]
        exact List.rel_of_pairwise_cons h4 hc2
      · intro c2 hc2
        rcases List.mem_cons.1 hc2 with rfl | h
        · exact chain_insert_sorted r c (h5 c hcmem)
        · exact h5t c2 h
    · rw [if_neg hcm]
      have hne : c ≠ [] := h1 c hcmem
      have hkeyc : chain_key wcv c ≠ maskOff r.flow wcv := by
        intro h
        exact hcm ((chain_matches_iff wcv (maskOff r.flow wcv) c hne).2 h)
      obtain ⟨g1, g2, g3, g4, g5⟩ := ih ⟨h1t, h2t, h3t, h4t, h5t⟩
      refine ⟨?_, ?_, ?_, ?_, ?_⟩
      · intro c2 hc2
        rcases List.mem_cons.1 hc2 with rfl | h
        · exact hne
        · exact g1 c2 h
      · intro c2 hc2 m hm
        rcases List.mem_cons.1 hc2 with rfl | h
        · exact h2 c2 hcmem m hm
        · exact g2 c2 h m hm
      · intro c2 hc2 m hm
        rcases List.mem_cons.1 hc2 with rfl | h
        · exact h3 c2 hcmem m hm
        · exact g3 c2 h m hm
      · refine List.pairwise_cons.2 ⟨?_, g4⟩
        intro c2 hc2
        rcases chains_insert_keys wcv r cs c2 hc2 with hk | ⟨c0, hc0, hk⟩
        · rw [hk]; exact hkeyc
        · rw [hk]; exact List.rel_of_pairwise_cons h4 hc0
      · intro c2 hc2
        rcases List.mem_cons.1 hc2 with rfl | h
        · exact h5 c2 hcmem
        · exact g5 c2 h

theorem tables_insert_wcs (target : Nat) (r : cls_rule) :
    ∀ ts : List cls_table, ∀ t2 ∈ (tables_insert target r ts).1,
      t2.wc = target ∨ ∃ t0 ∈ ts, t2.wc = t0.wc := by
  intro ts
  induction ts with
  | nil =>
    intro t2 ht2
    rcases List.mem_cons.1 ht2 with rfl | h
    · exact Or.inl rfl
    · exact absurd h (List.not_mem_nil t2)
  | cons t ts ih =>
    intro t2 ht2
    unfold tables_insert at ht2
    by_cases htw : t.wc == target
    · rw [if_pos htw] at ht2
      rcases List.mem_cons.1 ht2 with rfl | h
      · exact Or.inr ⟨t, List.mem_cons_self _ _, rfl⟩
      · exact Or.inr ⟨t2, List.mem_cons_of_mem t h, rfl⟩
    · rw [if_neg htw] at ht2
      rcases List.mem_cons.1 ht2 with rfl | h
      · exact Or.inr ⟨t2, List.mem_cons_self _ _, rfl⟩
      · rcases ih t2 h with hl | ⟨t0, ht0, hw⟩
        · exact Or.inl hl
        · exact Or.inr ⟨t0, List.mem_cons_of_mem t ht0, hw⟩

theorem tables_insert_inv (r : cls_rule) (hn : rule_normal r) :
    ∀ ts : List cls_table, (∀ t ∈ ts, table_inv t) →
      ts.Pairwise (fun a b => a.wc ≠ b.wc) →
      ((∀ t2 ∈ (tables_insert r.wc r ts).1, table_inv t2) ∧
       (tables_insert r.wc r ts).1.Pairwise (fun a b => a.wc ≠ b.wc)) := by
  intro ts
  induction ts with
  | nil =>
    intro _ _
    constructor
    · intro t2 ht2
      rcases List.mem_cons.1 ht2 with rfl | h
      · show chains_inv r.wc [[r]]
        have hbase : chains_inv r.wc ([] : List (List cls_rule)) := by
          refine ⟨?_, ?_, ?_, List.Pairwise.nil, ?_⟩ <;>
            intro c hc <;> exact absurd hc (List.not_mem_nil c)
        exact chains_insert_inv r.wc r rfl hn [] hbase
      · exact absurd h (List.not_mem_nil t2)
    · exact List.pairwise_singleton _ _
  | cons t ts ih =>
    intro hall hpw
    have hallt : ∀ t2 ∈ ts, table_inv t2 := fun t2 h => hall t2 (List.mem_cons_of_mem t h)
    have hpwt := List.Pairwise.of_cons hpw
    obtain ⟨ih1, ih2⟩ := ih hallt hpwt
    unfold tables_insert
    by_cases htw : t.wc == r.wc
    · rw [if_pos htw]
      have htweq : t.wc = r.wc := beq_iff_eq.mp htw
      constructor
      · intro t2 ht2
        rcases List.mem_cons.1 ht2 with rfl | h
        · show chains_inv t.wc (chains_insert t.wc (maskOff r.flow t.wc) r t.chains).1
          exact chains_insert_inv t.wc r htweq.symm hn t.chains
            (hall t (List.mem_cons_self _ _))
        · exact hallt t2 h
      · refine List.pairwise_cons.2 ⟨?_, hpwt⟩
        intro t2 ht2
        show t.wc ≠ t2.wc
        exact List.rel_of_pairwise_cons hpw ht2
    · rw [if_neg htw]
      have htwne : t.wc ≠ r.wc := fun h => htw (beq_iff_eq.mpr h)
      constructor
      · intro t2 ht2
        rcases List.mem_cons.1 ht2 with rfl | h
        · exact hall t2 (List.mem_cons_self _ _)
        · exact ih1 t2 h
      · refine List.pairwise_cons.2 ⟨?_, ih2⟩
        intro t2 ht2
        rcases tables_insert_wcs r.wc r ts t2 ht2 with hw | ⟨t0, ht0, hw⟩
        · rw [hw]; exact htwne
        · rw [hw]; exact List.rel_of_pairwise_cons hpw ht0

theorem classifier_insert_inv (cls : classifier) (r : cls_rule)
    (hinv : classifier_inv cls) (hn : rule_normal r) :
    classifier_inv (classifier_insert cls r).1 :=
  tables_insert_inv r hn cls.tables hinv.1 hinv.2

/-! Removal side of the preservation proof. -/

theorem chain_remove_subset (r : cls_rule) (c : List cls_rule) :
    ∀ x ∈ chain_remove r c, x ∈ c := by
  intro x hx
  exact List.mem_of_mem_filter hx

theorem chain_remove_sorted (r : cls_rule) (c : List cls_rule) (hs : chain_sorted c) :
    chain_sorted (chain_remove r c) :=
  List.Pairwise.sublist (List.filter_sublist c) hs

theorem chains_remove_mem (wcv key : Nat) (r : cls_rule) :
    ∀ cs : List (List cls_rule), ∀ x : cls_rule,
      (∃ c2 ∈ chains_remove wcv key r cs, x ∈ c2) → ∃ c ∈ cs, x ∈ c := by
  intro cs
  induction cs with
  | nil =>
    rintro x ⟨c2, hc2, _⟩
    exact absurd hc2 (List.not_mem_nil c2)
  | cons c cs ih =>
    rintro x ⟨c2, hc2, hx⟩
    unfold chains_remove at hc2
    by_cases hcm : chain_matches wcv key c
    · rw [if_pos hcm] at hc2
      by_cases hemp : (chain_remove r c).isEmpty
      · rw [if_pos hemp] at hc2
        exact ⟨c2, List.mem_cons_of_mem c hc2, hx⟩
      · rw [if_neg hemp] at hc2
        rcases List.mem_cons.1 hc2 with rfl | h
        · exact ⟨c, List.mem_cons_self _ _, chain_remove_subset r c x hx⟩
        · exact ⟨c2, List.mem_cons_of_mem c h, hx⟩
    · rw [if_neg hcm] at hc2
      rcases List.mem_cons.1 hc2 with rfl | h
      · exact ⟨c2, List.mem_cons_self _ _, hx⟩
      · obtain ⟨c3, hc3, hx3⟩ := ih x ⟨c2, h, hx⟩
        exact ⟨c3, List.mem_cons_of_mem c hc3, hx3⟩

theorem chains_remove_keys (wcv key : Nat) (r : cls_rule) :
    ∀ cs : List (List cls_rule),
      (∀ c ∈ cs, ∀ m ∈ c, maskOff m.flow wcv = chain_key wcv c) →
      ∀ c2 ∈ chains_remove wcv key r cs,
        ∃ c0 ∈ cs, chain_key wcv c2 = chain_key wcv c0 := by
  intro cs
  induction cs with
  | nil =>
    intro _ c2 hc2
    exact absurd hc2 (List.not_mem_nil c2)
  | cons c cs ih =>
    intro h3 c2 hc2
    have h3t : ∀ c0 ∈ cs, ∀ m ∈ c0, maskOff m.flow wcv = chain_key wcv c0 :=
      fun c0 h => h3 c0 (List.mem_cons_of_mem c h)
    unfold chains_remove at hc2
    by_cases hcm : chain_matches wcv key c
    · rw [if_pos hcm] at hc2
      by_cases hemp : (chain_remove r c).isEmpty
      · rw [if_pos hemp] at hc2
        exact ⟨c2, List.mem_cons_of_mem c hc2, rfl⟩
      · rw [if_neg hemp] at hc2
        rcases List.mem_cons.1 hc2 with rfl | h
        · refine ⟨c, List.mem_cons_self _ _, ?_⟩
          have hne : chain_remove r c ≠ [] := by
            intro h
            rw [h] at hemp
            exact hemp rfl
          exact chain_key_of_members wcv (chain_key wcv c) (chain_remove r c) hne
            (fun m hm => h3 c (List.mem_cons_self _ _) m (chain_remove_subset r c m hm))
        · exact ⟨c2, List.mem_cons_of_mem c h, rfl⟩
    · rw [if_neg hcm] at hc2
      rcases List.mem_cons.1 hc2 with rfl | h
      · exact ⟨c2, List.mem_cons_self _ _, rfl⟩
      · obtain ⟨c0, hc0, hk⟩ := ih h3t c2 h
        exact ⟨c0, List.mem_cons_of_mem c hc0, hk⟩

theorem chains_remove_inv (wcv key : Nat) (r : cls_rule) :
    ∀ cs : List (List cls_rule), chains_inv wcv cs →
      chains_inv wcv (chains_remove wcv key r cs) := by
  intro cs
  induction cs with
  | nil => intro h; exact h
  | cons c cs ih =>
    rintro ⟨h1, h2, h3, h4, h5⟩
    have hcmem : c ∈ c :: cs := List.mem_cons_self _ _
    have h1t : ∀ c2 ∈ cs, c2 ≠ [] := fun c2 h => h1 c2 (List.mem_cons_of_mem c h)
    have h2t : ∀ c2 ∈ cs, ∀ m ∈ c2, m.wc = wcv ∧ rule_normal m :=
      fun c2 h => h2 c2 (List.mem_cons_of_mem c h)
    have h3t : ∀ c2 ∈ cs, ∀ m ∈ c2, maskOff m.flow wcv = chain_key wcv c2 :=
      fun c2 h => h3 c2 (List.mem_cons_of_mem c h)
    have h4t := List.Pairwise.of_cons h4
    have h5t : ∀ c2 ∈ cs, chain_sorted c2 :=
      fun c2 h => h5 c2 (List.mem_cons_of_mem c h)
    have htail : chains_inv wcv cs := ⟨h1t, h2t, h3t, h4t, h5t⟩
    unfold chains_remove
    by_cases hcm : chain_matches wcv key c
    · rw [if_pos hcm]
      by_cases hemp : (chain_remove r c).isEmpty
      · rw [if_pos hemp]
        exact htail
      · rw [if_neg hemp]
        have hne2 : chain_remove r c ≠ [] := by
          intro h
          rw [h] at hemp
          exact hemp rfl
        have hkey2 : chain_key wcv (chain_remove r c) = chain_key wcv c :=
          chain_key_of_members wcv (chain_key wcv c) (chain_remove r c) hne2
            (fun m hm => h3 c hcmem m (chain_remove_subset r c m hm))
        refine ⟨?_, ?_, ?_, ?_, ?_⟩
        · intro c2 hc2
          rcases List.mem_cons.1 hc2 with rfl | h
          · exact hne2
          · exact h1t c2 h
        · intro c2 hc2 m hm
          rcases List.mem_cons.1 hc2 with rfl | h
          · exact h2 c hcmem m (chain_remove_subset r c m hm)
          · exact h2t c2 h m hm
        · intro c2 hc2 m hm
          rcases List.mem_cons.1 hc2 with rfl | h
          · rw [hkey2]
            exact h3 c hcmem m (chain_remove_subset r c m hm)
          · exact h3t c2 h m hm
        · refine List.pairwise_cons.2 ⟨?_, h4t⟩
          intro c2 hc2
          rw [hkey2]
          exact List.rel_of_pairwise_cons h4 hc2
        · intro c2 hc2
          rcases List.mem_cons.1 hc2 with rfl | h
          · exact chain_remove_sorted r c (h5 c hcmem)
          · exact h5t c2 h
    · rw [if_neg hcm]
      obtain ⟨g1, g2, g3, g4, g5⟩ := ih htail
      refine ⟨?_, ?_, ?_, ?_, ?_⟩
      · intro c2 hc2
        rcases List.mem_cons.1 hc2 with rfl | h
        · exact h1 c2 hcmem
        · exact g1 c2 h
      · intro c2 hc2 m hm
        rcases List.mem_cons.1 hc2 with rfl | h
        · exact h2 c2 hcmem m hm
        · exact g2 c2 h m hm
      · intro c2 hc2 m hm
        rcases List.mem_cons.1 hc2 with rfl | h
        · exact h3 c2 hcmem m hm
        · exact g3 c2 h m hm
      · refine List.pairwise_cons.2 ⟨?_, g4⟩
        intro c2 hc2
        obtain ⟨c0, hc0, hk⟩ := chains_remove_keys wcv key r cs h3t c2 hc2
        rw [hk]
        exact List.rel_of_pairwise_cons h4 hc0
      · intro c2 hc2
        rcases List.mem_cons.1 hc2 with rfl | h
        · exact h5 c2 hcmem
        · exact g5 c2 h

theorem tables_remove_wcs (r : cls_rule) :
    ∀ ts : List cls_table, ∀ t2 ∈ tables_remove r ts, ∃ t0 ∈ ts, t2.wc = t0.wc := by
  intro ts
  induction ts with
  | nil =>
    intro t2 ht2
    exact absurd ht2 (List.not_mem_nil t2)
  | cons t ts ih =>
    intro t2 ht2
    unfold tables_remove at ht2
    by_cases htw : t.wc == r.wc
    · rw [if_pos htw] at ht2
      by_cases hdes : cls_table_count (cls_table_remove r t) == 0 &&
          (cls_table_remove r t).n_refs == 0
      · rw [if_pos hdes] at ht2
        exact ⟨t2, List.mem_cons_of_mem t ht2, rfl⟩
      · rw [if_neg hdes] at ht2
        rcases List.mem_cons.1 ht2 with rfl | h
        · exact ⟨t, List.mem_cons_self _ _, rfl⟩
        · exact ⟨t2, List.mem_cons_of_mem t h, rfl⟩
    · rw [if_neg htw] at ht2
      rcases List.mem_cons.1 ht2 with rfl | h
      · exact ⟨t2, List.mem_cons_self _ _, rfl⟩
      · obtain ⟨t0, ht0, hw⟩ := ih t2 h
        exact ⟨t0, List.mem_cons_of_mem t ht0, hw⟩

theorem cls_table_remove_inv (r : cls_rule) (t : cls_table) (ht : table_inv t) :
    table_inv (cls_table_remove r t) := by
  show chains_inv t.wc (chains_remove t.wc (maskOff r.flow t.wc) r t.chains)
  exact chains_remove_inv t.wc (maskOff r.flow t.wc) r t.chains ht

theorem tables_remove_inv (r : cls_rule) :
    ∀ ts : List cls_table, (∀ t ∈ ts, table_inv t) →
      ts.Pairwise (fun a b => a.wc ≠ b.wc) →
      ((∀ t2 ∈ tables_remove r ts, table_inv t2) ∧
       (tables_remove r ts).Pairwise (fun a b => a.wc ≠ b.wc)) := by
  intro ts
  induction ts with
  | nil =>
    intro _ _
    exact ⟨fun t2 h => absurd h (List.not_mem_nil t2), List.Pairwise.nil⟩
  | cons t ts ih =>
    intro hall hpw
    have hallt : ∀ t2 ∈ ts, table_inv t2 := fun t2 h => hall t2 (List.mem_cons_of_mem t h)
    have hpwt := List.Pairwise.of_cons hpw
    obtain ⟨ih1, ih2⟩ := ih hallt hpwt
    unfold tables_remove
    by_cases htw : t.wc == r.wc
    · rw [if_pos htw]
      by_cases hdes : cls_table_count (cls_table_remove r t) == 0 &&
          (cls_table_remove r t).n_refs == 0
      · rw [if_pos hdes]
        exact ⟨hallt, hpwt⟩
      · rw [if_neg hdes]
        constructor
        · intro t2 ht2
          rcases List.mem_cons.1 ht2 with rfl | h
          · exact cls_table_remove_inv r t (hall t (List.mem_cons_self _ _))
          · exact hallt t2 h
        · refine List.pairwise_cons.2 ⟨?_, hpwt⟩
          intro t2 ht2
          show t.wc ≠ t2.wc
          exact List.rel_of_pairwise_cons hpw ht2
    · rw [if_neg htw]
      constructor
      · intro t2 ht2
        rcases List.mem_cons.1 ht2 with rfl | h
        · exact hall t2 (List.mem_cons_self _ _)
        · exact ih1 t2 h
      · refine List.pairwise_cons.2 ⟨?_, ih2⟩
        intro t2 ht2
        obtain ⟨t0, ht0, hw⟩ := tables_remove_wcs r ts t2 ht2
        rw [hw]
        exact List.rel_of_pairwise_cons hpw ht0

theorem classifier_remove_inv (cls : classifier) (r : cls_rule)
    (hinv : classifier_inv cls) : classifier_inv (classifier_remove cls r) :=
  tables_remove_inv r cls.tables hinv.1 hinv.2

theorem tables_reserve_wcs (wcv : Nat) :
    ∀ ts : List cls_table, ∀ t2 ∈ tables_reserve wcv ts, ∃ t0 ∈ ts, t2.wc = t0.wc := by
  intro ts
  induction ts with
  | nil =>
    intro t2 ht2
    exact absurd ht2 (List.not_mem_nil t2)
  | cons t ts ih =>
    intro t2 ht2
    unfold tables_reserve at ht2
    by_cases htw : t.wc == wcv
    · rw [if_pos htw] at ht2
      rcases List.mem_cons.1 ht2 with rfl | h
      · exact ⟨t, List.mem_cons_self _ _, rfl⟩
      · exact ⟨t2, List.mem_cons_of_mem t h, rfl⟩
    · rw [if_neg htw] at ht2
      rcases List.mem_cons.1 ht2 with rfl | h
      · exact ⟨t2, List.mem_cons_self _ _, rfl⟩
      · obtain ⟨t0, ht0, hw⟩ := ih t2 h
        exact ⟨t0, List.mem_cons_of_mem t ht0, hw⟩

theorem tables_reserve_inv (wcv : Nat) :
    ∀ ts : List cls_table, (∀ t ∈ ts, table_inv t) →
      ts.Pairwise (fun a b => a.wc ≠ b.wc) →
      ((∀ t2 ∈ tables_reserve wcv ts, table_inv t2) ∧
       (tables_reserve wcv ts).Pairwise (fun a b => a.wc ≠ b.wc)) := by
  intro ts
  induction ts with
  | nil =>
    intro _ _
    exact ⟨fun t2 h => absurd h (List.not_mem_nil t2), List.Pairwise.nil⟩
  | cons t ts ih =>
    intro hall hpw
    have hallt : ∀ t2 ∈ ts, table_inv t2 := fun t2 h => hall t2 (List.mem_cons_of_mem t h)
    have hpwt := List.Pairwise.of_cons hpw
    obtain ⟨ih1, ih2⟩ := ih hallt hpwt
    unfold tables_reserve
    by_cases htw : t.wc == wcv
    · rw [if_pos htw]
      constructor
      · intro t2 ht2
        rcases List.mem_cons.1 ht2 with rfl | h
        · exact hall t (List.mem_cons_self _ _)
        · exact hallt t2 h
      · refine List.pairwise_cons.2 ⟨?_, hpwt⟩
        intro t2 ht2
        show t.wc ≠ t2.wc
        exact List.rel_of_pairwise_cons hpw ht2
    · rw [if_neg htw]
      constructor
      · intro t2 ht2
        rcases List.mem_cons.1 ht2 with rfl | h
        · exact hall t2 (List.mem_cons_self _ _)
        · exact ih1 t2 h
      · refine List.pairwise_cons.2 ⟨?_, ih2⟩
        intro t2 ht2
        obtain ⟨t0, ht0, hw⟩ := tables_reserve_wcs wcv ts t2 ht2
        rw [hw]
        exact List.rel_of_pairwise_cons hpw ht0

theorem tables_release_wcs (wcv : Nat) :
    ∀ ts : List cls_table, ∀ t2 ∈ tables_release wcv ts, ∃ t0 ∈ ts, t2.wc = t0.wc := by
  intro ts
  induction ts with
  | nil =>
    intro t2 ht2
    exact absurd ht2 (List.not_mem_nil t2)
  | cons t ts ih =>
    intro t2 ht2
    unfold tables_release at ht2
    by_cases htw : t.wc == wcv
    · rw [if_pos htw] at ht2
      by_cases hdes : cls_table_count { t with n_refs := t.n_refs - 1 } == 0 &&
          ({ t with n_refs := t.n_refs - 1 } : cls_table).n_refs == 0
      · rw [if_pos hdes] at ht2
        exact ⟨t2, List.mem_cons_of_mem t ht2, rfl⟩
      · rw [if_neg hdes] at ht2
        rcases List.mem_cons.1 ht2 with rfl | h
        · exact ⟨t, List.mem_cons_self _ _, rfl⟩
        · exact ⟨t2, List.mem_cons_of_mem t h, rfl⟩
    · rw [if_neg htw] at ht2
      rcases List.mem_cons.1 ht2 with rfl | h
      · exact ⟨t2, List.mem_cons_self _ _, rfl⟩
      · obtain ⟨t0, ht0, hw⟩ := ih t2 h
        exact ⟨t0, List.mem_cons_of_mem t ht0, hw⟩

theorem tables_release_inv (wcv : Nat) :
    ∀ ts : List cls_table, (∀ t ∈ ts, table_inv t) →
      ts.Pairwise (fun a b => a.wc ≠ b.wc) →
      ((∀ t2 ∈ tables_release wcv ts, table_inv t2) ∧
       (tables_release wcv ts).Pairwise (fun a b => a.wc ≠ b.wc)) := by
  intro ts
  induction ts with
  | nil =>
    intro _ _
    exact ⟨fun t2 h => absurd h (List.not_mem_nil t2), List.Pairwise.nil⟩
  | cons t ts ih =>
    intro hall hpw
    have hallt : ∀ t2 ∈ ts, table_inv t2 := fun t2 h => hall t2 (List.mem_cons_of_mem t h)
    have hpwt := List.Pairwise.of_cons hpw
    obtain ⟨ih1, ih2⟩ := ih hallt hpwt
    unfold tables_release
    by_cases htw : t.wc == wcv
    · rw [if_pos htw]
      by_cases hdes : cls_table_count { t with n_refs := t.n_refs - 1 } == 0 &&
          ({ t with n_refs := t.n_refs - 1 } : cls_table).n_refs == 0
      · rw [if_pos hdes]
        exact ⟨hallt, hpwt⟩
      · rw [if_neg hdes]
        constructor
        · intro t2 ht2
          rcases List.mem_cons.1 ht2 with rfl | h
          · exact hall t (List.mem_cons_self _ _)
          · exact hallt t2 h
        · refine List.pairwise_cons.2 ⟨?_, hpwt⟩
          intro t2 ht2
          show t.wc ≠ t2.wc
          exact List.rel_of_pairwise_cons hpw ht2
    · rw [if_neg htw]
      constructor
      · intro t2 ht2
        rcases List.mem_cons.1 ht2 with rfl | h
        · exact hall t2 (List.mem_cons_self _ _)
        · exact ih1 t2 h
      · refine List.pairwise_cons.2 ⟨?_, ih2⟩
        intro t2 ht2
        obtain ⟨t0, ht0, hw⟩ := tables_release_wcs wcv ts t2 ht2
        rw [hw]
        exact List.rel_of_pairwise_cons hpw ht0

theorem classifier_reserve_inv (cls : classifier) (wcv : Nat)
    (hinv : classifier_inv cls) : classifier_inv (classifier_reserve cls wcv) :=
  tables_reserve_inv wcv cls.tables hinv.1 hinv.2

theorem classifier_release_inv (cls : classifier) (wcv : Nat)
    (hinv : classifier_inv cls) : classifier_inv (classifier_release cls wcv) :=
  tables_release_inv wcv cls.tables hinv.1 hinv.2

theorem remove_cb_inv (P : cls_rule → Bool) (r : cls_rule) (s : classifier)
    (hinv : classifier_inv s) : classifier_inv (remove_cb P r s) := by
  unfold remove_cb
  by_cases hp : P r
  · rw [if_pos hp]
    exact classifier_remove_inv s r hinv
  · rw [if_neg hp]
    exact hinv

theorem visit_rules_inv (cb : cls_rule → classifier → classifier)
    (hcb : ∀ r s, classifier_inv s → classifier_inv (cb r s)) :
    ∀ (l : List cls_rule) (s : classifier), classifier_inv s →
      classifier_inv (visit_rules cb l s).1 := by
  intro l
  induction l with
  | nil => intro s h; exact h
  | cons r rest ih =>
    intro s h
    exact ih (cb r s) (hcb r s h)

theorem for_each_tables_inv (inc : Nat) (flt : Option cls_rule)
    (cb : cls_rule → classifier → classifier)
    (hcb : ∀ r s, classifier_inv s → classifier_inv (cb r s)) :
    ∀ (ts : List cls_table) (s : classifier), classifier_inv s →
      classifier_inv (for_each_tables inc flt cb ts s).1 := by
  intro ts
  induction ts with
  | nil => intro s h; exact h
  | cons t ts ih =>
    intro s h
    unfold for_each_tables
    by_cases hti : table_included inc t.wc
    · rw [if_pos hti]
      have h1 := classifier_reserve_inv s t.wc h
      have h2 := visit_rules_inv cb hcb
        (filter_rules flt (rules_in_table (classifier_reserve s t.wc) t.wc))
        (classifier_reserve s t.wc) h1
      have h3 := classifier_release_inv _ t.wc h2
      exact ih _ h3
    · rw [if_neg hti]
      exact ih s h

/-- C5: every public operation (general insert, exact insert, remove, and
the two iteration functions run with a callback that removes visited
rules) preserves the classifier invariants, in particular I3/I4: every
equal-key chain stays strictly descending in priority with no duplicated
priority. -/
theorem C5_operations_preserve_invariants (cls : classifier) (r : cls_rule)
    (hinv : classifier_inv cls) (hn : rule_normal r) :
    classifier_inv (classifier_insert cls r).1 ∧
    (r.wc = 0 → classifier_inv (classifier_insert_exact cls r)) ∧
    classifier_inv (classifier_remove cls r) ∧
    (∀ (P : cls_rule → Bool) (inc : Nat),
      classifier_inv (classifier_for_each cls inc (remove_cb P)).1) ∧
    (∀ (P : cls_rule → Bool) (inc : Nat) (f : cls_rule),
      classifier_inv (classifier_for_each_match cls f inc (remove_cb P)).1) := by
  refine ⟨classifier_insert_inv cls r hinv hn, ?_, classifier_remove_inv cls r hinv, ?_, ?_⟩
  · intro h0
    have : classifier_insert_exact cls r = (classifier_insert cls r).1 := by
      unfold classifier_insert_exact classifier_insert
      rw [h0]
    rw [this]
    exact classifier_insert_inv cls r hinv hn
  · intro P inc
    exact for_each_tables_inv inc none (remove_cb P) (remove_cb_inv P) cls.tables cls hinv
  · intro P inc f
    exact for_each_tables_inv inc (some f) (remove_cb P) (remove_cb_inv P) cls.tables cls hinv

/-- Witness for C5: a concrete classifier and rule; the insert branch of
the preserved invariant, instantiated. -/
theorem C5_witness :
    classifier_inv { tables := [⟨3, [[⟨4, 3, 5, 1⟩]], 0⟩] } ∧
    rule_normal ⟨8, 3, 7, 2⟩ ∧
    classifier_inv (classifier_insert { tables := [⟨3, [[⟨4, 3, 5, 1⟩]], 0⟩] } ⟨8, 3, 7, 2⟩).1 :=
  ⟨by decide, by decide,
   (C5_operations_preserve_invariants { tables := [⟨3, [[⟨4, 3, 5, 1⟩]], 0⟩] }
      ⟨8, 3, 7, 2⟩ (by decide) (by decide)).1⟩

/-! ## C7: removing the only rule of a table -/

theorem chains_singleton (cs : List (List cls_rule)) (h1 : ∀ c ∈ cs, c ≠ [])
    (hsum : (cs.map List.length).sum = 1) (x : cls_rule) (hx : x ∈ cs.flatten) :
    cs = [[x]] := by
  cases cs with
  | nil => simp at hx
  | cons c cs2 =>
    cases c with
    | nil => exact absurd rfl (h1 [] (List.mem_cons_self _ _))
    | cons m rest =>
      have hsum2 : rest.length + 1 + (cs2.map List.length).sum = 1 := by
        simpa [Nat.add_comm] using hsum
      have hrest : rest.length = 0 := by omega
      have hcs2sum : (cs2.map List.length).sum = 0 := by omega
      have hrestnil : rest = [] := List.eq_nil_of_length_eq_zero hrest
      have hcs2nil : cs2 = [] := by
        cases cs2 with
        | nil => rfl
        | cons c2 cs3 =>
          have hne : c2 ≠ [] := h1 c2 (List.mem_cons_of_mem _ (List.mem_cons_self _ _))
          have hlen : 0 < c2.length := List.length_pos.2 hne
          have : c2.length + (cs3.map List.length).sum = 0 := by simpa using hcs2sum
          omega
      subst hrestnil
      subst hcs2nil
      have hxm : x = m := by simpa using hx
      subst hxm
      rfl

theorem cls_table_remove_single (r : cls_rule) (t : cls_table)
    (hch : t.chains = [[r]]) : (cls_table_remove r t).chains = [] := by
  show chains_remove t.wc (maskOff r.flow t.wc) r t.chains = []
  rw [hch]
  unfold chains_remove
  rw [if_pos (by simp [chain_matches])]
  rw [if_pos (by simp [chain_remove])]

theorem tables_remove_rwc_mem (r : cls_rule) :
    ∀ ts : List cls_table, ts.Pairwise (fun a b => a.wc ≠ b.wc) →
      ∀ t, ts.find? (fun t2 => t2.wc == r.wc) = some t →
      ∀ t2 ∈ tables_remove r ts, t2.wc = r.wc → t2 = cls_table_remove r t := by
  intro ts
  induction ts with
  | nil =>
    intro _ t htf
    cases htf
  | cons t0 ts ih =>
    intro hpw t htf t2 ht2 hwc2
    unfold tables_remove at ht2
    by_cases htw : t0.wc == r.wc
    · have hfind : List.find? (fun t2 => t2.wc == r.wc) (t0 :: ts) = some t0 :=
        List.find?_cons_of_pos ts htw
      have hteq : t = t0 := (Option.some.inj (hfind.symm.trans htf)).symm
      subst hteq
      rw [if_pos htw] at ht2
      have htwc : t.wc = r.wc := beq_iff_eq.mp htw
      by_cases hdes : cls_table_count (cls_table_remove r t) == 0 &&
          (cls_table_remove r t).n_refs == 0
      · rw [if_pos hdes] at ht2
        have : t.wc ≠ t2.wc := List.rel_of_pairwise_cons hpw ht2
        exact absurd (htwc.trans hwc2.symm) this
      · rw [if_neg hdes] at ht2
        rcases List.mem_cons.1 ht2 with rfl | h
        · rfl
        · have : t.wc ≠ t2.wc := List.rel_of_pairwise_cons hpw h
          exact absurd (htwc.trans hwc2.symm) this
    · have hfind : List.find? (fun t2 => t2.wc == r.wc) (t0 :: ts) =
          List.find? (fun t2 => t2.wc == r.wc) ts :=
        List.find?_cons_of_neg ts htw
      rw [hfind] at htf
      rw [if_neg htw] at ht2
      rcases List.mem_cons.1 ht2 with rfl | h
      · exact absurd (beq_iff_eq.mpr hwc2) htw
      · exact ih (List.Pairwise.of_cons hpw) t htf t2 h hwc2

theorem tables_remove_find (r : cls_rule) :
    ∀ ts : List cls_table, ts.Pairwise (fun a b => a.wc ≠ b.wc) →
      ∀ t, ts.find? (fun t2 => t2.wc == r.wc) = some t →
      (cls_table_remove r t).chains = [] →
      ((t.n_refs = 0 →
        (tables_remove r ts).find? (fun t2 => t2.wc == r.wc) = none) ∧
       (t.n_refs ≠ 0 →
        (tables_remove r ts).find? (fun t2 => t2.wc == r.wc) =
          some (cls_table_remove r t))) := by
  intro ts
  induction ts with
  | nil =>
    intro _ t htf
    cases htf
  | cons t0 ts ih =>
    intro hpw t htf hch0
    by_cases htw : t0.wc == r.wc
    · have hfind : List.find? (fun t2 => t2.wc == r.wc) (t0 :: ts) = some t0 :=
        List.find?_cons_of_pos ts htw
      have hteq : t = t0 := (Option.some.inj (hfind.symm.trans htf)).symm
      subst hteq
      have htwc : t.wc = r.wc := beq_iff_eq.mp htw
      have hcount0 : cls_table_count (cls_table_remove r t) = 0 := by
        unfold cls_table_count
        rw [hch0]
        rfl
      have hrefs : (cls_table_remove r t).n_refs = t.n_refs := rfl
      have hred : tables_remove r (t :: ts) =
          if cls_table_count (cls_table_remove r t) == 0 &&
              (cls_table_remove r t).n_refs == 0 then ts
          else cls_table_remove r t :: ts := by
        unfold tables_remove
        rw [if_pos htw]
      have hnone : ts.find? (fun t2 => t2.wc == r.wc) = none := by
        rw [List.find?_eq_none]
        intro x hx hbx
        have : t.wc ≠ x.wc := List.rel_of_pairwise_cons hpw hx
        exact this (htwc.trans (beq_iff_eq.mp hbx).symm)
      constructor
      · intro h0
        rw [hred, if_pos]
        · exact hnone
        · rw [hcount0, hrefs, h0]
          rfl
      · intro h0
        rw [hred, if_neg]
        · refine List.find?_cons_of_pos _ ?_
          show (cls_table_remove r t).wc == r.wc
          exact htw
        · rw [hcount0, hrefs]
          simp only [Bool.and_eq_true, beq_iff_eq]
          rintro ⟨_, h⟩
          exact h0 h
    · have hfind : List.find? (fun t2 => t2.wc == r.wc) (t0 :: ts) =
          List.find? (fun t2 => t2.wc == r.wc) ts :=
        List.find?_cons_of_neg ts htw
      rw [hfind] at htf
      have hred : tables_remove r (t0 :: ts) = t0 :: tables_remove r ts := by
        show (if (t0.wc == r.wc) = true then
            let t2 := cls_table_remove r t0
            if (cls_table_count t2 == 0 && t2.n_refs == 0) = true then ts else t2 :: ts
          else t0 :: tables_remove r ts) = t0 :: tables_remove r ts
        rw [if_neg htw]
      obtain ⟨ihn, ihs⟩ := ih (List.Pairwise.of_cons hpw) t htf hch0
      have hskip : List.find? (fun t2 => t2.wc == r.wc) (t0 :: tables_remove r ts) =
          List.find? (fun t2 => t2.wc == r.wc) (tables_remove r ts) :=
        List.find?_cons_of_neg (tables_remove r ts) htw
      constructor
      · intro h0
        rw [hred, hskip]
        exact ihn h0
      · intro h0
        rw [hred, hskip]
        exact ihs h0

/-- C7: after removing the only rule of a table, the rule count for that
mask is zero, no lookup can return a rule of that mask any more, and the
table itself is destroyed and deregistered exactly when its reservation
counter is zero (otherwise it persists, empty, with its reservations). -/
theorem C7_remove_only_rule (cls : classifier) (r : cls_rule) (t : cls_table)
    (hinv : classifier_inv cls) (ht : get_table cls r.wc = some t)
    (hcount : cls_table_count t = 1) (hr : r ∈ cls_table_rules t) :
    mask_count (classifier_remove cls r) r.wc = 0 ∧
    (∀ r2 ∈ classifier_rules (classifier_remove cls r), r2.wc ≠ r.wc) ∧
    (∀ p inc r2, classifier_lookup (classifier_remove cls r) p inc = some r2 →
      r2.wc ≠ r.wc) ∧
    (t.n_refs = 0 → get_table (classifier_remove cls r) r.wc = none) ∧
    (t.n_refs ≠ 0 → ∃ t2, get_table (classifier_remove cls r) r.wc = some t2 ∧
      cls_table_count t2 = 0 ∧ t2.n_refs = t.n_refs) := by
  have htf : cls.tables.find? (fun t2 => t2.wc == r.wc) = some t := ht
  have htm : t ∈ cls.tables := List.mem_of_find?_eq_some htf
  have htinv : table_inv t := hinv.1 t htm
  have hch : t.chains = [[r]] :=
    chains_singleton t.chains htinv.1 hcount r hr
  have hch0 : (cls_table_remove r t).chains = [] := cls_table_remove_single r t hch
  obtain ⟨hfn, hfs⟩ := tables_remove_find r cls.tables hinv.2 t htf hch0
  have hcount0 : cls_table_count (cls_table_remove r t) = 0 := by
    unfold cls_table_count
    rw [hch0]
    rfl
  have hBmem : ∀ r2 ∈ classifier_rules (classifier_remove cls r), r2.wc ≠ r.wc := by
    intro r2 hr2 hwc2
    obtain ⟨t2, ht2m, hrt2⟩ :=
      (classifier_rules_mem_iff (classifier_remove cls r) r2).1 hr2
    have hres_inv := classifier_remove_inv cls r hinv
    have hwc2t : r2.wc = t2.wc := rule_wc_of_table t2 (hres_inv.1 t2 ht2m) r2 hrt2
    have ht2wc : t2.wc = r.wc := hwc2t.symm.trans hwc2
    have ht2eq : t2 = cls_table_remove r t :=
      tables_remove_rwc_mem r cls.tables hinv.2 t htf t2 ht2m ht2wc
    rw [ht2eq] at hrt2
    unfold cls_table_rules at hrt2
    rw [hch0] at hrt2
    simp at hrt2
  refine ⟨?_, hBmem, ?_, hfn, ?_⟩
  · unfold mask_count
    by_cases h0 : t.n_refs = 0
    · rw [show get_table (classifier_remove cls r) r.wc =
          (tables_remove r cls.tables).find? (fun t2 => t2.wc == r.wc) from rfl, hfn h0]
    · rw [show get_table (classifier_remove cls r) r.wc =
          (tables_remove r cls.tables).find? (fun t2 => t2.wc == r.wc) from rfl, hfs h0]
      exact hcount0
  · intro p inc r2 hlk
    have hres_inv := classifier_remove_inv cls r hinv
    have hlk2 : lookup_tables p inc (classifier_remove cls r).tables = some r2 := hlk
    obtain ⟨⟨t2, ht2m, _, hrt2⟩, _, _⟩ :=
      (lookup_tables_correct p inc (classifier_remove cls r).tables hres_inv.1).2 r2 hlk2
    exact hBmem r2 ((classifier_rules_mem_iff (classifier_remove cls r) r2).2 ⟨t2, ht2m, hrt2⟩)
  · intro h0
    exact ⟨cls_table_remove r t, hfs h0, hcount0, rfl⟩

/-- Witness for C7: a one-rule table with no reservations; removal
destroys and deregisters the table. -/
theorem C7_witness :
    classifier_inv { tables := [⟨3, [[⟨4, 3, 5, 1⟩]], 0⟩] } ∧
    get_table { tables := [⟨3, [[⟨4, 3, 5, 1⟩]], 0⟩] } (⟨4, 3, 5, 1⟩ : cls_rule).wc =
      some ⟨3, [[⟨4, 3, 5, 1⟩]], 0⟩ ∧
    mask_count (classifier_remove { tables := [⟨3, [[⟨4, 3, 5, 1⟩]], 0⟩] } ⟨4, 3, 5, 1⟩)
      (⟨4, 3, 5, 1⟩ : cls_rule).wc = 0 :=
  ⟨by decide, by decide,
   (C7_remove_only_rule { tables := [⟨3, [[⟨4, 3, 5, 1⟩]], 0⟩] } ⟨4, 3, 5, 1⟩
     ⟨3, [[⟨4, 3, 5, 1⟩]], 0⟩ (by decide) (by decide) (by decide) (by decide)).1⟩

/-! ## C8/C9: iteration visits the snapshot and respects reservations -/

theorem filter_rules_subset (flt : Option cls_rule) (l : List cls_rule) :
    ∀ x ∈ filter_rules flt l, x ∈ l := by
  intro x hx
  cases flt with
  | none => exact hx
  | some f => exact List.mem_of_mem_filter hx

theorem tables_remove_other (r : cls_rule) (w : Nat) (hw : w ≠ r.wc) :
    ∀ ts : List cls_table,
      (tables_remove r ts).find? (fun t2 => t2.wc == w) =
        ts.find? (fun t2 => t2.wc == w) := by
  intro ts
  induction ts with
  | nil => rfl
  | cons t ts ih =>
    have hred : tables_remove r (t :: ts) =
        if (t.wc == r.wc) = true then
          (if (cls_table_count (cls_table_remove r t) == 0 &&
              (cls_table_remove r t).n_refs == 0) = true then ts
           else cls_table_remove r t :: ts)
        else t :: tables_remove r ts := rfl
    by_cases htw : t.wc == r.wc
    · rw [hred, if_pos htw]
      have htwc : t.wc = r.wc := beq_iff_eq.mp htw
      have hskip : ¬ (t.wc == w) = true := by
        simp only [beq_iff_eq]
        intro h
        exact hw (h.symm.trans htwc)
      have hskipr : ¬ ((cls_table_remove r t).wc == w) = true := hskip
      by_cases hdes : (cls_table_count (cls_table_remove r t) == 0 &&
          (cls_table_remove r t).n_refs == 0) = true
      · rw [if_pos hdes]
        rw [List.find?_cons_of_neg ts hskip]
      · rw [if_neg hdes]
        rw [List.find?_cons_of_neg ts hskipr, List.find?_cons_of_neg ts hskip]
    · rw [hred, if_neg htw]
      by_cases hmw : (t.wc == w) = true
      · have h1 : List.find? (fun t2 => t2.wc == w) (t :: tables_remove r ts) = some t :=
          List.find?_cons_of_pos _ hmw
        have h2 : List.find? (fun t2 => t2.wc == w) (t :: ts) = some t :=
          List.find?_cons_of_pos _ hmw
        rw [h1, h2]
      · have h1 : List.find? (fun t2 => t2.wc == w) (t :: tables_remove r ts) =
            List.find? (fun t2 => t2.wc == w) (tables_remove r ts) :=
          List.find?_cons_of_neg _ hmw
        have h2 : List.find? (fun t2 => t2.wc == w) (t :: ts) =
            List.find? (fun t2 => t2.wc == w) ts :=
          List.find?_cons_of_neg _ hmw
        rw [h1, h2]
        exact ih

theorem tables_remove_reserved (r : cls_rule) (w : Nat) :
    ∀ ts : List cls_table, ∀ t, ts.find? (fun t2 => t2.wc == w) = some t →
      1 ≤ t.n_refs →
      ∃ t2, (tables_remove r ts).find? (fun t2 => t2.wc == w) = some t2 ∧
        t2.n_refs = t.n_refs := by
  intro ts
  induction ts with
  | nil =>
    intro t htf
    cases htf
  | cons t0 ts ih =>
    intro t htf hrefs
    have hred : tables_remove r (t0 :: ts) =
        if (t0.wc == r.wc) = true then
          (if (cls_table_count (cls_table_remove r t0) == 0 &&
              (cls_table_remove r t0).n_refs == 0) = true then ts
           else cls_table_remove r t0 :: ts)
        else t0 :: tables_remove r ts := rfl
    by_cases hmw : (t0.wc == w) = true
    · have hfind : List.find? (fun t2 => t2.wc == w) (t0 :: ts) = some t0 :=
        List.find?_cons_of_pos ts hmw
      have hteq : t = t0 := (Option.some.inj (hfind.symm.trans htf)).symm
      subst hteq
      by_cases htw : (t.wc == r.wc) = true
      · have hrefs2 : (cls_table_remove r t).n_refs = t.n_refs := rfl
        have hkept : ¬ (cls_table_count (cls_table_remove r t) == 0 &&
            (cls_table_remove r t).n_refs == 0) = true := by
          simp only [Bool.and_eq_true, beq_iff_eq, hrefs2]
          rintro ⟨_, h⟩
          omega
        rw [hred, if_pos htw, if_neg hkept]
        refine ⟨cls_table_remove r t, ?_, hrefs2⟩
        exact List.find?_cons_of_pos ts hmw
      · rw [hred, if_neg htw]
        exact ⟨t, List.find?_cons_of_pos _ hmw, rfl⟩
    · have hfind : List.find? (fun t2 => t2.wc == w) (t0 :: ts) =
          List.find? (fun t2 => t2.wc == w) ts := List.find?_cons_of_neg ts hmw
      rw [hfind] at htf
      by_cases htw : (t0.wc == r.wc) = true
      · by_cases hdes : (cls_table_count (cls_table_remove r t0) == 0 &&
            (cls_table_remove r t0).n_refs == 0) = true
        · rw [hred, if_pos htw, if_pos hdes]
          exact ⟨t, htf, rfl⟩
        · rw [hred, if_pos htw, if_neg hdes]
          have hskipr : ¬ ((cls_table_remove r t0).wc == w) = true := hmw
          rw [List.find?_cons_of_neg ts hskipr]
          exact ⟨t, htf, rfl⟩
      · rw [hred, if_neg htw]
        have h1 : List.find? (fun t2 => t2.wc == w) (t0 :: tables_remove r ts) =
            List.find? (fun t2 => t2.wc == w) (tables_remove r ts) :=
          List.find?_cons_of_neg _ hmw
        rw [h1]
        exact ih t htf hrefs

theorem tables_reserve_other (wv w : Nat) (hw : w ≠ wv) :
    ∀ ts : List cls_table,
      (tables_reserve wv ts).find? (fun t2 => t2.wc == w) =
        ts.find? (fun t2 => t2.wc == w) := by
  intro ts
  induction ts with
  | nil => rfl
  | cons t ts ih =>
    have hred : tables_reserve wv (t :: ts) =
        if (t.wc == wv) = true then { t with n_refs := t.n_refs + 1 } :: ts
        else t :: tables_reserve wv ts := rfl
    by_cases htw : (t.wc == wv) = true
    · rw [hred, if_pos htw]
      have htwc : t.wc = wv := beq_iff_eq.mp htw
      have hskip : ¬ (t.wc == w) = true := by
        simp only [beq_iff_eq]
        intro h
        exact hw (h.symm.trans htwc)
      have h1 : List.find? (fun t2 => t2.wc == w)
          ({ t with n_refs := t.n_refs + 1 } :: ts) =
          List.find? (fun t2 => t2.wc == w) ts :=
        List.find?_cons_of_neg _ hskip
      have h2 : List.find? (fun t2 => t2.wc == w) (t :: ts) =
          List.find? (fun t2 => t2.wc == w) ts :=
        List.find?_cons_of_neg _ hskip
      rw [h1, h2]
    · rw [hred, if_neg htw]
      by_cases hmw : (t.wc == w) = true
      · have h1 : List.find? (fun t2 => t2.wc == w) (t :: tables_reserve wv ts) = some t :=
          List.find?_cons_of_pos _ hmw
        have h2 : List.find? (fun t2 => t2.wc == w) (t :: ts) = some t :=
          List.find?_cons_of_pos _ hmw
        rw [h1, h2]
      · have h1 : List.find? (fun t2 => t2.wc == w) (t :: tables_reserve wv ts) =
            List.find? (fun t2 => t2.wc == w) (tables_reserve wv ts) :=
          List.find?_cons_of_neg _ hmw
        have h2 : List.find? (fun t2 => t2.wc == w) (t :: ts) =
            List.find? (fun t2 => t2.wc == w) ts :=
          List.find?_cons_of_neg _ hmw
        rw [h1, h2]
        exact ih

theorem tables_reserve_hit (wv : Nat) :
    ∀ ts : List cls_table, ∀ t, ts.find? (fun t2 => t2.wc == wv) = some t →
      (tables_reserve wv ts).find? (fun t2 => t2.wc == wv) =
        some { t with n_refs := t.n_refs + 1 } := by
  intro ts
  induction ts with
  | nil =>
    intro t htf
    cases htf
  | cons t0 ts ih =>
    intro t htf
    have hred : tables_reserve wv (t0 :: ts) =
        if (t0.wc == wv) = true then { t0 with n_refs := t0.n_refs + 1 } :: ts
        else t0 :: tables_reserve wv ts := rfl
    by_cases htw : (t0.wc == wv) = true
    · have hfind : List.find? (fun t2 => t2.wc == wv) (t0 :: ts) = some t0 :=
        List.find?_cons_of_pos ts htw
      have hteq : t = t0 := (Option.some.inj (hfind.symm.trans htf)).symm
      subst hteq
      rw [hred, if_pos htw]
      exact List.find?_cons_of_pos _ htw
    · have hfind : List.find? (fun t2 => t2.wc == wv) (t0 :: ts) =
          List.find? (fun t2 => t2.wc == wv) ts := List.find?_cons_of_neg ts htw
      rw [hfind] at htf
      rw [hred, if_neg htw]
      have h1 : List.find? (fun t2 => t2.wc == wv) (t0 :: tables_reserve wv ts) =
          List.find? (fun t2 => t2.wc == wv) (tables_reserve wv ts) :=
        List.find?_cons_of_neg _ htw
      rw [h1]
      exact ih t htf

theorem tables_release_other (wv w : Nat) (hw : w ≠ wv) :
    ∀ ts : List cls_table,
      (tables_release wv ts).find? (fun t2 => t2.wc == w) =
        ts.find? (fun t2 => t2.wc == w) := by
  intro ts
  induction ts with
  | nil => rfl
  | cons t ts ih =>
    have hred : tables_release wv (t :: ts) =
        if (t.wc == wv) = true then
          (if (cls_table_count { t with n_refs := t.n_refs - 1 } == 0 &&
              ({ t with n_refs := t.n_refs - 1 } : cls_table).n_refs == 0) = true then ts
           else { t with n_refs := t.n_refs - 1 } :: ts)
        else t :: tables_release wv ts := rfl
    by_cases htw : (t.wc == wv) = true
    · rw [hred, if_pos htw]
      have htwc : t.wc = wv := beq_iff_eq.mp htw
      have hskip : ¬ (t.wc == w) = true := by
        simp only [beq_iff_eq]
        intro h
        exact hw (h.symm.trans htwc)
      have h2 : List.find? (fun t2 => t2.wc == w) (t :: ts) =
          List.find? (fun t2 => t2.wc == w) ts :=
        List.find?_cons_of_neg _ hskip
      by_cases hdes : (cls_table_count { t with n_refs := t.n_refs - 1 } == 0 &&
          ({ t with n_refs := t.n_refs - 1 } : cls_table).n_refs == 0) = true
      · rw [if_pos hdes, h2]
      · rw [if_neg hdes]
        have h1 : List.find? (fun t2 => t2.wc == w)
            ({ t with n_refs := t.n_refs - 1 } :: ts) =
            List.find? (fun t2 => t2.wc == w) ts :=
          List.find?_cons_of_neg _ hskip
        rw [h1, h2]
    · rw [hred, if_neg htw]
      by_cases hmw : (t.wc == w) = true
      · have h1 : List.find? (fun t2 => t2.wc == w) (t :: tables_release wv ts) = some t :=
          List.find?_cons_of_pos _ hmw
        have h2 : List.find? (fun t2 => t2.wc == w) (t :: ts) = some t :=
          List.find?_cons_of_pos _ hmw
        rw [h1, h2]
      · have h1 : List.find? (fun t2 => t2.wc == w) (t :: tables_release wv ts) =
            List.find? (fun t2 => t2.wc == w) (tables_release wv ts) :=
          List.find?_cons_of_neg _ hmw
        have h2 : List.find? (fun t2 => t2.wc == w) (t :: ts) =
            List.find? (fun t2 => t2.wc == w) ts :=
          List.find?_cons_of_neg _ hmw
        rw [h1, h2]
        exact ih

theorem tables_release_hit (wv : Nat) :
    ∀ ts : List cls_table, ts.Pairwise (fun a b => a.wc ≠ b.wc) →
      ∀ t, ts.find? (fun t2 => t2.wc == wv) = some t →
      ((cls_table_count { t with n_refs := t.n_refs - 1 } == 0 &&
          ({ t with n_refs := t.n_refs - 1 } : cls_table).n_refs == 0) = true →
        (tables_release wv ts).find? (fun t2 => t2.wc == wv) = none) ∧
      (¬ (cls_table_count { t with n_refs := t.n_refs - 1 } == 0 &&
          ({ t with n_refs := t.n_refs - 1 } : cls_table).n_refs == 0) = true →
        (tables_release wv ts).find? (fun t2 => t2.wc == wv) =
          some { t with n_refs := t.n_refs - 1 }) := by
  intro ts
  induction ts with
  | nil =>
    intro _ t htf
    cases htf
  | cons t0 ts ih =>
    intro hpw t htf
    have hred : tables_release wv (t0 :: ts) =
        if (t0.wc == wv) = true then
          (if (cls_table_count { t0 with n_refs := t0.n_refs - 1 } == 0 &&
              ({ t0 with n_refs := t0.n_refs - 1 } : cls_table).n_refs == 0) = true then ts
           else { t0 with n_refs := t0.n_refs - 1 } :: ts)
        else t0 :: tables_release wv ts := rfl
    by_cases htw : (t0.wc == wv) = true
    · have hfind : List.find? (fun t2 => t2.wc == wv) (t0 :: ts) = some t0 :=
        List.find?_cons_of_pos ts htw
      have hteq : t = t0 := (Option.some.inj (hfind.symm.trans htf)).symm
      subst hteq
      constructor
      · intro hdes
        rw [hred, if_pos htw, if_pos hdes]
        rw [List.find?_eq_none]
        intro x hx hbx
        have hne : t.wc ≠ x.wc := List.rel_of_pairwise_cons hpw hx
        exact hne ((beq_iff_eq.mp htw).trans (beq_iff_eq.mp hbx).symm)
      · intro hdes
        rw [hred, if_pos htw, if_neg hdes]
        exact List.find?_cons_of_pos _ htw
    · have hfind : List.find? (fun t2 => t2.wc == wv) (t0 :: ts) =
          List.find? (fun t2 => t2.wc == wv) ts := List.find?_cons_of_neg ts htw
      rw [hfind] at htf
      obtain ⟨ihn, ihs⟩ := ih (List.Pairwise.of_cons hpw) t htf
      have h1 : List.find? (fun t2 => t2.wc == wv) (t0 :: tables_release wv ts) =
          List.find? (fun t2 => t2.wc == wv) (tables_release wv ts) :=
        List.find?_cons_of_neg _ htw
      constructor
      · intro hdes
        rw [hred, if_neg htw, h1]
        exact ihn hdes
      · intro hdes
        rw [hred, if_neg htw, h1]
        exact ihs hdes

theorem visit_rules_remove_spec (P : cls_rule → Bool) (w : Nat) :
    ∀ (L : List cls_rule) (s : classifier) (tw : cls_table),
      (∀ x ∈ L, x.wc = w) →
      get_table s w = some tw → 1 ≤ tw.n_refs →
      (((visit_rules (remove_cb P) L s).2.map Prod.fst = L) ∧
       (∀ e ∈ (visit_rules (remove_cb P) L s).2,
         ∃ t2, get_table e.2 e.1.wc = some t2 ∧ 1 ≤ t2.n_refs) ∧
       (∃ t2, get_table (visit_rules (remove_cb P) L s).1 w = some t2 ∧
         t2.n_refs = tw.n_refs) ∧
       (∀ w2, w2 ≠ w →
         get_table (visit_rules (remove_cb P) L s).1 w2 = get_table s w2)) := by
  intro L
  induction L with
  | nil =>
    intro s tw hwc hget hrefs
    refine ⟨rfl, ?_, ⟨tw, hget, rfl⟩, fun w2 _ => rfl⟩
    intro e he
    exact absurd he (List.not_mem_nil e)
  | cons x L ih =>
    intro s tw hwc hget hrefs
    have hx : x.wc = w := hwc x (List.mem_cons_self _ _)
    have hstep : (∃ tw2, get_table (remove_cb P x s) w = some tw2 ∧
        tw2.n_refs = tw.n_refs) ∧
        (∀ w2, w2 ≠ w → get_table (remove_cb P x s) w2 = get_table s w2) := by
      unfold remove_cb
      by_cases hp : P x
      · rw [if_pos hp]
        constructor
        · exact tables_remove_reserved x w s.tables tw hget hrefs
        · intro w2 hw2
          have hw2x : w2 ≠ x.wc := by rw [hx]; exact hw2
          exact tables_remove_other x w2 hw2x s.tables
      · rw [if_neg hp]
        exact ⟨⟨tw, hget, rfl⟩, fun w2 _ => rfl⟩
    obtain ⟨⟨tw2, hget2, hrefs2⟩, hother2⟩ := hstep
    obtain ⟨imap, ientries, ⟨t2f, hgetf, hrefsf⟩, iother⟩ :=
      ih (remove_cb P x s) tw2 (fun y hy => hwc y (List.mem_cons_of_mem x hy))
        hget2 (by omega)
    have hred : visit_rules (remove_cb P) (x :: L) s =
        ((visit_rules (remove_cb P) L (remove_cb P x s)).1,
         (x, s) :: (visit_rules (remove_cb P) L (remove_cb P x s)).2) := rfl
    rw [hred]
    refine ⟨?_, ?_, ?_, ?_⟩
    · show x :: (visit_rules (remove_cb P) L (remove_cb P x s)).2.map Prod.fst = x :: L
      rw [imap]
    · intro e he
      rcases List.mem_cons.1 he with rfl | he2
      · exact ⟨tw, by rw [show (x, s).1.wc = w from hx]; exact hget, hrefs⟩
      · exact ientries e he2
    · exact ⟨t2f, hgetf, hrefsf.trans hrefs2⟩
    · intro w2 hw2
      rw [iother w2 hw2, hother2 w2 hw2]

theorem for_each_tables_cons (inc : Nat) (flt : Option cls_rule)
    (cb : cls_rule → classifier → classifier) (t : cls_table) (ts : List cls_table)
    (s : classifier) :
    for_each_tables inc flt cb (t :: ts) s =
      if table_included inc t.wc then
        ((for_each_tables inc flt cb ts
            (classifier_release
              (visit_rules cb
                (filter_rules flt (rules_in_table (classifier_reserve s t.wc) t.wc))
                (classifier_reserve s t.wc)).1 t.wc)).1,
         (visit_rules cb
            (filter_rules flt (rules_in_table (classifier_reserve s t.wc) t.wc))
            (classifier_reserve s t.wc)).2 ++
         (for_each_tables inc flt cb ts
            (classifier_release
              (visit_rules cb
                (filter_rules flt (rules_in_table (classifier_reserve s t.wc) t.wc))
                (classifier_reserve s t.wc)).1 t.wc)).2)
      else for_each_tables inc flt cb ts s := rfl

theorem for_each_tables_spec (P : cls_rule → Bool) (inc : Nat) (flt : Option cls_rule) :
    ∀ (ts : List cls_table) (s : classifier),
      classifier_inv s →
      (∀ t ∈ ts, table_inv t) →
      ts.Pairwise (fun a b => a.wc ≠ b.wc) →
      (∀ t ∈ ts, get_table s t.wc = some t) →
      (((for_each_tables inc flt (remove_cb P) ts s).2.map Prod.fst =
        ts.flatMap (fun t => if table_included inc t.wc then
          filter_rules flt (cls_table_rules t) else [])) ∧
       (∀ e ∈ (for_each_tables inc flt (remove_cb P) ts s).2,
         ∃ t2, get_table e.2 e.1.wc = some t2 ∧ 1 ≤ t2.n_refs) ∧
       (∀ w t2, get_table (for_each_tables inc flt (remove_cb P) ts s).1 w = some t2 →
         ∃ t0, get_table s w = some t0 ∧ t2.n_refs = t0.n_refs)) := by
  intro ts
  induction ts with
  | nil =>
    intro s hinv hall hpw hget
    refine ⟨rfl, ?_, ?_⟩
    · intro e he
      exact absurd he (List.not_mem_nil e)
    · intro w t2 h
      exact ⟨t2, h, rfl⟩
  | cons t ts ih =>
    intro s hinv hall hpw hget
    have htinv : table_inv t := hall t (List.mem_cons_self _ _)
    have hallt : ∀ t2 ∈ ts, table_inv t2 := fun t2 h => hall t2 (List.mem_cons_of_mem t h)
    have hpwt := List.Pairwise.of_cons hpw
    have hgett : get_table s t.wc = some t := hget t (List.mem_cons_self _ _)
    by_cases hti : table_included inc t.wc
    · rw [for_each_tables_cons, if_pos hti]
      have hs1get : get_table (classifier_reserve s t.wc) t.wc =
          some { t with n_refs := t.n_refs + 1 } :=
        tables_reserve_hit t.wc s.tables t hgett
      have hrules : rules_in_table (classifier_reserve s t.wc) t.wc = cls_table_rules t := by
        unfold rules_in_table
        rw [hs1get]
        rfl
      rw [hrules]
      have hinv1 : classifier_inv (classifier_reserve s t.wc) :=
        classifier_reserve_inv s t.wc hinv
      have hLwc : ∀ x ∈ filter_rules flt (cls_table_rules t), x.wc = t.wc :=
        fun x hx => rule_wc_of_table t htinv x (filter_rules_subset flt _ x hx)
      obtain ⟨vmap, ventries, ⟨t2v, hvget, hvrefs⟩, vother⟩ :=
        visit_rules_remove_spec P t.wc (filter_rules flt (cls_table_rules t))
          (classifier_reserve s t.wc) { t with n_refs := t.n_refs + 1 } hLwc hs1get
          (Nat.succ_le_succ (Nat.zero_le t.n_refs))
      have hinv2 : classifier_inv
          (visit_rules (remove_cb P) (filter_rules flt (cls_table_rules t))
            (classifier_reserve s t.wc)).1 :=
        visit_rules_inv (remove_cb P) (remove_cb_inv P) _ _ hinv1
      have hinv3 : classifier_inv
          (classifier_release
            (visit_rules (remove_cb P) (filter_rules flt (cls_table_rules t))
              (classifier_reserve s t.wc)).1 t.wc) :=
        classifier_release_inv _ t.wc hinv2
      have hother3 : ∀ w, w ≠ t.wc →
          get_table (classifier_release
            (visit_rules (remove_cb P) (filter_rules flt (cls_table_rules t))
              (classifier_reserve s t.wc)).1 t.wc) w = get_table s w := by
        intro w hw
        have e1 : get_table (classifier_release
            (visit_rules (remove_cb P) (filter_rules flt (cls_table_rules t))
              (classifier_reserve s t.wc)).1 t.wc) w =
            get_table (visit_rules (remove_cb P) (filter_rules flt (cls_table_rules t))
              (classifier_reserve s t.wc)).1 w :=
          tables_release_other t.wc w hw _
        have e2 : get_table (classifier_reserve s t.wc) w = get_table s w :=
          tables_reserve_other t.wc w hw s.tables
        rw [e1, vother w hw, e2]
      have hnext : ∀ t2 ∈ ts,
          get_table (classifier_release
            (visit_rules (remove_cb P) (filter_rules flt (cls_table_rules t))
              (classifier_reserve s t.wc)).1 t.wc) t2.wc = some t2 := by
        intro t2 ht2
        have hne : t2.wc ≠ t.wc := fun h => (List.rel_of_pairwise_cons hpw ht2) h.symm
        rw [hother3 t2.wc hne]
        exact hget t2 (List.mem_cons_of_mem t ht2)
      obtain ⟨rmap, rentries, rfinal⟩ := ih _ hinv3 hallt hpwt hnext
      refine ⟨?_, ?_, ?_⟩
      · show ((visit_rules (remove_cb P) (filter_rules flt (cls_table_rules t))
            (classifier_reserve s t.wc)).2 ++ _).map Prod.fst = _
        rw [List.map_append, vmap, rmap, List.flatMap_cons, if_pos hti]
      · intro e he
        rcases List.mem_append.1 he with he1 | he2
        · exact ventries e he1
        · exact rentries e he2
      · intro w t2 hf
        obtain ⟨t0v, hs3, hrefs0⟩ := rfinal w t2 hf
        by_cases hww : w = t.wc
        · subst hww
          obtain ⟨hdesn, hdess⟩ :=
            tables_release_hit t.wc
              (visit_rules (remove_cb P) (filter_rules flt (cls_table_rules t))
                (classifier_reserve s t.wc)).1.tables hinv2.2 t2v hvget
          by_cases hdes : (cls_table_count { t2v with n_refs := t2v.n_refs - 1 } == 0 &&
              ({ t2v with n_refs := t2v.n_refs - 1 } : cls_table).n_refs == 0) = true
          · have hnone2 : get_table (classifier_release
                (visit_rules (remove_cb P) (filter_rules flt (cls_table_rules t))
                  (classifier_reserve s t.wc)).1 t.wc) t.wc = none := hdesn hdes
            rw [hnone2] at hs3
            cases hs3
          · have hsome : get_table (classifier_release
                (visit_rules (remove_cb P) (filter_rules flt (cls_table_rules t))
                  (classifier_reserve s t.wc)).1 t.wc) t.wc =
                some { t2v with n_refs := t2v.n_refs - 1 } := hdess hdes
            rw [hsome] at hs3
            have ht0v : t0v = { t2v with n_refs := t2v.n_refs - 1 } :=
              (Option.some.inj hs3).symm
            refine ⟨t, hgett, ?_⟩
            rw [hrefs0, ht0v]
            show t2v.n_refs - 1 = t.n_refs
            rw [hvrefs]
            rfl
        · rw [hother3 w hww] at hs3
          exact ⟨t0v, hs3, hrefs0⟩
    · rw [for_each_tables_cons, if_neg hti]
      obtain ⟨rmap, rentries, rfinal⟩ := ih s hinv hallt hpwt
        (fun t2 h => hget t2 (List.mem_cons_of_mem t h))
      refine ⟨?_, rentries, rfinal⟩
      rw [rmap, List.flatMap_cons, if_neg hti, List.nil_append]

theorem get_table_self_of_pairwise :
    ∀ ts : List cls_table, ts.Pairwise (fun a b => a.wc ≠ b.wc) →
      ∀ t ∈ ts, ts.find? (fun t2 => t2.wc == t.wc) = some t := by
  intro ts
  induction ts with
  | nil =>
    intro _ t ht
    exact absurd ht (List.not_mem_nil t)
  | cons t0 ts ih =>
    intro hpw t ht
    rcases List.mem_cons.1 ht with rfl | ht2
    · exact List.find?_cons_of_pos ts (beq_iff_eq.mpr rfl)
    · have hne : ¬ (t0.wc == t.wc) = true := by
        simp only [beq_iff_eq]
        exact List.rel_of_pairwise_cons hpw ht2
      have hskip : List.find? (fun t2 => t2.wc == t.wc) (t0 :: ts) =
          List.find? (fun t2 => t2.wc == t.wc) ts :=
        List.find?_cons_of_neg ts hne
      rw [hskip]
      exact ih (List.Pairwise.of_cons hpw) t ht2

theorem get_table_self (cls : classifier) (hinv : classifier_inv cls) :
    ∀ t ∈ cls.tables, get_table cls t.wc = some t :=
  get_table_self_of_pairwise cls.tables hinv.2

/-- C8: with a callback that removes the rules it visits, both iteration
functions visit exactly the rules matching the filter that were present
when iteration began — the log of visited rules equals the snapshot, so
nothing is skipped or visited twice. -/
theorem C8_for_each_visits_snapshot (cls : classifier) (inc : Nat)
    (P : cls_rule → Bool) (f : cls_rule) (hinv : classifier_inv cls) :
    (classifier_for_each cls inc (remove_cb P)).2.map Prod.fst =
      snapshot_rules cls inc none ∧
    (classifier_for_each_match cls f inc (remove_cb P)).2.map Prod.fst =
      snapshot_rules cls inc (some f) := by
  have hget := get_table_self cls hinv
  constructor
  · exact (for_each_tables_spec P inc none cls.tables cls hinv hinv.1 hinv.2 hget).1
  · exact (for_each_tables_spec P inc (some f) cls.tables cls hinv hinv.1 hinv.2 hget).1

/-- Witness for C8: a two-table classifier iterated with a
remove-everything callback still logs exactly the snapshot. -/
theorem C8_witness :
    classifier_inv
      { tables := [⟨0, [[⟨13, 0, 1, 2⟩]], 0⟩, ⟨3, [[⟨12, 3, 5, 1⟩]], 0⟩] } ∧
    (classifier_for_each
        { tables := [⟨0, [[⟨13, 0, 1, 2⟩]], 0⟩, ⟨3, [[⟨12, 3, 5, 1⟩]], 0⟩] } 3
        (remove_cb (fun _ => true))).2.map Prod.fst =
      snapshot_rules
        { tables := [⟨0, [[⟨13, 0, 1, 2⟩]], 0⟩, ⟨3, [[⟨12, 3, 5, 1⟩]], 0⟩] } 3 none :=
  ⟨by decide,
   (C8_for_each_visits_snapshot
      { tables := [⟨0, [[⟨13, 0, 1, 2⟩]], 0⟩, ⟨3, [[⟨12, 3, 5, 1⟩]], 0⟩] } 3
      (fun _ => true) ⟨0, 0, 1, 9⟩ (by decide)).1⟩

/-- C9: a table is never destroyed while its reservation counter is
nonzero: `classifier_remove` keeps any table holding a reservation (with
its count of reservations intact), every callback invocation during
iteration sees the visited rule's table present with a positive
reservation count (taken before traversal), and when iteration finishes
every surviving table has its reservation count restored to its initial
value (released after traversal). -/
theorem C9_reservations_guard_tables (cls : classifier) (inc : Nat)
    (P : cls_rule → Bool) (f : cls_rule) (hinv : classifier_inv cls) :
    (∀ (s : classifier) (r : cls_rule) (w : Nat) (t : cls_table),
      get_table s w = some t → 1 ≤ t.n_refs →
      ∃ t2, get_table (classifier_remove s r) w = some t2 ∧ t2.n_refs = t.n_refs) ∧
    (∀ e ∈ (classifier_for_each cls inc (remove_cb P)).2,
      ∃ t2, get_table e.2 e.1.wc = some t2 ∧ 1 ≤ t2.n_refs) ∧
    (∀ w t2, get_table (classifier_for_each cls inc (remove_cb P)).1 w = some t2 →
      ∃ t0, get_table cls w = some t0 ∧ t2.n_refs = t0.n_refs) ∧
    (∀ e ∈ (classifier_for_each_match cls f inc (remove_cb P)).2,
      ∃ t2, get_table e.2 e.1.wc = some t2 ∧ 1 ≤ t2.n_refs) ∧
    (∀ w t2, get_table (classifier_for_each_match cls f inc (remove_cb P)).1 w = some t2 →
      ∃ t0, get_table cls w = some t0 ∧ t2.n_refs = t0.n_refs) := by
  have hget := get_table_self cls hinv
  obtain ⟨_, he1, hf1⟩ :=
    for_each_tables_spec P inc none cls.tables cls hinv hinv.1 hinv.2 hget
  obtain ⟨_, he2, hf2⟩ :=
    for_each_tables_spec P inc (some f) cls.tables cls hinv hinv.1 hinv.2 hget
  refine ⟨?_, he1, hf1, he2, hf2⟩
  intro s r w t hgt hrefs
  exact tables_remove_reserved r w s.tables t hgt hrefs

/-- Witness for C9: the reservation-guard on removal, instantiated. -/
theorem C9_witness :
    classifier_inv
      { tables := [⟨3, [[⟨12, 3, 5, 1⟩]], 0⟩] } ∧
    ∀ (s : classifier) (r : cls_rule) (w : Nat) (t : cls_table),
      get_table s w = some t → 1 ≤ t.n_refs →
      ∃ t2, get_table (classifier_remove s r) w = some t2 ∧ t2.n_refs = t.n_refs :=
  ⟨by decide,
   (C9_reservations_guard_tables { tables := [⟨3, [[⟨12, 3, 5, 1⟩]], 0⟩] } 3
      (fun _ => true) ⟨0, 0, 1, 9⟩ (by decide)).1⟩
